import Mathlib

/-!
Verification of the Texas Hold'em hand evaluator and betting engine of the
onlinepoker repository, as a shallow embedding in Lean.

The first half of this file translates the relevant JavaScript sources into
executable Lean definitions:

* `src/js/hand-evaluator.js` — cards, `evaluate5CardHand`, `getCombinations`,
  `evaluateBestHand`, `compareHands`;
* the poker engine file — `Player`, `PokerEngine` state, `startNewHand`,
  `postBlinds`, `postBlind`, `dealHoleCards`, `dealCommunityCards`,
  `processAction`, `advance`, `getNextActivePlayerIndex`,
  `isBettingRoundComplete`, `advancePhase`, `handleShowdown`, `handleWin`.

JavaScript numbers are modelled as `Int` (all arithmetic in these sources is
exact integer arithmetic); array indices are `Nat`.  Object references are
replaced by indices into the `players` list.  Display-only data (log strings,
card `symbol` and display `rank`, player names, the never-populated
`sidePots` array and the `winners` display record) is omitted: it does not
influence any state or return value the claims are about.  The unbounded
`while` loop in `advancePhase` is modelled with an explicit fuel parameter;
the engine operations that can run it return `Option`, `none` standing for a
non-terminating (or crashing) run.  The deck shuffle is modelled by passing
the shuffled deck to `startNewHand` as an argument.
-/

/-! ### Cards (hand-evaluator.js, bottom section) -/

inductive Suit where
  | hearts | diamonds | clubs | spades
deriving DecidableEq, Repr

structure Card where
  suit : Suit
  value : Nat
deriving DecidableEq, Repr

/-- Default card used only to totalise JavaScript array accesses that can
never be out of range at the call sites (value 0 occurs on no real card). -/
def dftCard : Card := ⟨Suit.hearts, 0⟩

def SUITS : List Suit := [.hearts, .diamonds, .clubs, .spades]

/-- The numeric values of RANKS, in the source order 2 .. 10, J, Q, K, A. -/
def RANK_VALUES : List Nat := [2, 3, 4, 5, 6, 7, 8, 9, 10, 11, 12, 13, 14]

/-- `createDeck`: 52 cards, suit-major in the source iteration order. -/
def createDeck : List Card :=
  SUITS.flatMap fun s => RANK_VALUES.map fun v => ⟨s, v⟩

/-! ### Hand evaluator (hand-evaluator.js, top section) -/

structure HandValue where
  rank : Nat
  name : String
  kickers : List Nat
deriving DecidableEq, Repr

/-- The sort `[...cards].sort((a, b) => b.value - a.value)`: descending by
value; a stable insertion sort matches the (stable) JavaScript sort. -/
def sortedDesc (cards : List Card) : List Card :=
  List.insertionSort (fun a b => b.value ≤ a.value) cards

/-- The keys of the `groupByRank` object: JavaScript objects enumerate
integer-like keys in ascending numeric order. -/
def keysAsc (cards : List Card) : List Nat :=
  List.insertionSort (· ≤ ·) (cards.map fun c => c.value).dedup

/-- `groupByRank`: for each distinct card value (ascending, the object key
order) the list of cards of that value, in original order. -/
def groupByRank (cards : List Card) : List (Nat × List Card) :=
  (keysAsc cards).map fun v => (v, cards.filter fun c => c.value == v)

/-- `Object.values(rankGroups).map(g => g.length).sort((a, b) => b - a)`. -/
def groupSizesDesc (cards : List Card) : List Nat :=
  List.insertionSort (· ≥ ·) ((groupByRank cards).map fun g => g.2.length)

/-- `isFlush`: every card has the suit of the first card. -/
def isFlush (cards : List Card) : Bool :=
  cards.all fun card => card.suit == (cards.getD 0 dftCard).suit

/-- `isStraight`: wheel A-2-3-4-5, or five consecutive descending values. -/
def isStraight (cards : List Card) : Bool :=
  let sorted := sortedDesc cards
  let v := fun i => (sorted.getD i dftCard).value
  if v 0 = 14 ∧ v 1 = 5 ∧ v 2 = 4 ∧ v 3 = 3 ∧ v 4 = 2 then true
  else (List.range 4).all fun i => v i - v (i + 1) == 1

/-- `evaluate5CardHand`. -/
def evaluate5CardHand (cards : List Card) : HandValue :=
  let sorted := sortedDesc cards
  let rankGroups := groupByRank cards
  let groupSizes := groupSizesDesc cards
  let flush := isFlush cards
  let straight := isStraight cards
  let values := sorted.map fun c => c.value
  if flush ∧ straight ∧ values.getD 0 0 = 14 ∧ values.getD 4 0 = 10 then
    ⟨10, "Royal Flush", values⟩
  else if flush ∧ straight then
    ⟨9, "Straight Flush", values⟩
  else if groupSizes.getD 0 0 = 4 then
    let quadValue := ((rankGroups.find? fun g => g.2.length == 4).getD (0, [])).1
    let kicker := (values.find? fun v => v != quadValue).getD 0
    ⟨8, "Four of a Kind", [quadValue, kicker]⟩
  else if groupSizes.getD 0 0 = 3 ∧ groupSizes.getD 1 0 = 2 then
    let tripValue := ((rankGroups.find? fun g => g.2.length == 3).getD (0, [])).1
    let pairValue := ((rankGroups.find? fun g => g.2.length == 2).getD (0, [])).1
    ⟨7, "Full House", [tripValue, pairValue]⟩
  else if flush then
    ⟨6, "Flush", values⟩
  else if straight then
    if values.getD 0 0 = 14 ∧ values.getD 1 0 = 5 then
      ⟨5, "Straight", [5]⟩
    else
      ⟨5, "Straight", [values.getD 0 0]⟩
  else if groupSizes.getD 0 0 = 3 then
    let tripValue := ((rankGroups.find? fun g => g.2.length == 3).getD (0, [])).1
    let kickers := (values.filter fun v => v != tripValue).take 2
    ⟨4, "Three of a Kind", tripValue :: kickers⟩
  else if groupSizes.getD 0 0 = 2 ∧ groupSizes.getD 1 0 = 2 then
    let pairValues := List.insertionSort (· ≥ ·)
      ((rankGroups.filter fun g => g.2.length == 2).map fun g => g.1)
    let kicker := (values.find? fun v => !(pairValues.contains v)).getD 0
    ⟨3, "Two Pair", pairValues ++ [kicker]⟩
  else if groupSizes.getD 0 0 = 2 then
    let pairValue := ((rankGroups.find? fun g => g.2.length == 2).getD (0, [])).1
    let kickers := (values.filter fun v => v != pairValue).take 3
    ⟨2, "One Pair", pairValue :: kickers⟩
  else
    ⟨1, "High Card", values⟩

/-- The kicker loop of `compareHands`: first difference over the overlapping
prefix of the two kicker lists, else 0. -/
def kickCmp : List Nat → List Nat → Int
  | a :: as, b :: bs => if a ≠ b then (a : Int) - b else kickCmp as bs
  | _, _ => 0

/-- `compareHands`: category difference first, then the kicker loop. -/
def compareHands (hand1 hand2 : HandValue) : Int :=
  if hand1.rank ≠ hand2.rank then (hand1.rank : Int) - (hand2.rank : Int)
  else kickCmp hand1.kickers hand2.kickers

/-- The index tuples produced by the five nested loops of `getCombinations`:
all `i < j < k < l < m < n` in loop order. -/
def comboIndices (n : Nat) : List (List Nat) :=
  (List.range (n - 4)).flatMap fun i =>
    (List.range' (i + 1) (n - 3 - (i + 1))).flatMap fun j =>
      (List.range' (j + 1) (n - 2 - (j + 1))).flatMap fun k =>
        (List.range' (k + 1) (n - 1 - (k + 1))).flatMap fun l =>
          (List.range' (l + 1) (n - (l + 1))).map fun m => [i, j, k, l, m]

/-- `getCombinations`: all 5-card combinations, by index tuple. -/
def getCombinations (cards : List Card) : List (List Card) :=
  (comboIndices cards.length).map fun idxs => idxs.map fun t => cards.getD t dftCard

/-- The body of the `for` loop of `evaluateBestHand`: keep the better of the
best hand so far and the evaluation of the next combination. -/
def bestHandStep (bestHand : Option HandValue) (combo : List Card) : Option HandValue :=
  let evaluation := evaluate5CardHand combo
  match bestHand with
  | none => some evaluation
  | some b => if 0 < compareHands evaluation b then some evaluation else some b

/-- `evaluateBestHand`: null below 5 cards, direct evaluation at 5, otherwise
a scan over all combinations keeping the strictly better hand. -/
def evaluateBestHand (holeCards communityCards : List Card) : Option HandValue :=
  let allCards := holeCards ++ communityCards
  if allCards.length < 5 then none
  else if allCards.length = 5 then some (evaluate5CardHand allCards)
  else
    (getCombinations allCards).foldl bestHandStep none

/-! ### Betting engine (poker engine source file) -/

inductive Phase where
  | preflop | flop | turn | river | showdown
deriving DecidableEq, Repr

structure Player where
  chips : Int
  holeCards : List Card
  hasFolded : Bool
  isAllIn : Bool
  currentBet : Int
  totalBetThisRound : Int
deriving DecidableEq, Repr

/-- Default player used only to totalise JavaScript array accesses that are
in range at every call site. -/
def dftPlayer : Player :=
  { chips := 0, holeCards := [], hasFolded := false, isAllIn := false,
    currentBet := 0, totalBetThisRound := 0 }

/-- `player.reset()` (bot-AI source / game controller source). -/
def Player.reset (p : Player) : Player :=
  { p with holeCards := [], hasFolded := false, isAllIn := false,
           currentBet := 0, totalBetThisRound := 0 }

structure PokerEngine where
  players : List Player
  bigBlind : Int
  smallBlind : Int
  pot : Int
  communityCards : List Card
  deck : List Card
  phase : Phase
  currentBet : Int
  minRaise : Int
  dealerIndex : Nat
  currentPlayerIndex : Nat
  /-- `-1` when nobody is recorded as raiser, otherwise a player index. -/
  lastRaiserIndex : Int
  isHandComplete : Bool
deriving DecidableEq, Repr

namespace PokerEngine

/-- The `ACTIONS` constants of the engine source. -/
inductive Action where
  | fold | check | call | bet | raise | allIn
  /-- any action string other than the six recognised ones -/
  | other
deriving DecidableEq, Repr

/-- The `PokerEngine` constructor (`new PokerEngine(players, bigBlind)`). -/
def mkEngine (players : List Player) (bigBlind : Int) : PokerEngine :=
  { players := players
    bigBlind := bigBlind
    smallBlind := bigBlind / 2
    pot := 0
    communityCards := []
    deck := []
    phase := .preflop
    currentBet := 0
    minRaise := bigBlind
    dealerIndex := 0
    currentPlayerIndex := 0
    lastRaiserIndex := -1
    isHandComplete := false }

/-- Replace player `i`; out-of-range indices (a crash in the source) leave
the list unchanged. -/
def setPlayer (e : PokerEngine) (i : Nat) (p : Player) : PokerEngine :=
  { e with players := e.players.set i p }

/-- `postBlind(playerIndex, amount)`. -/
def postBlind (playerIndex : Nat) (amount : Int) (e : PokerEngine) : PokerEngine :=
  match e.players.get? playerIndex with
  | none => e
  | some player =>
    let blindAmount := min amount player.chips
    let chips := player.chips - blindAmount
    let player :=
      { player with
          chips := chips
          totalBetThisRound := blindAmount
          currentBet := blindAmount
          isAllIn := if chips = 0 then true else player.isAllIn }
    { setPlayer e playerIndex player with pot := e.pot + blindAmount }

/-- `postBlinds()`. -/
def postBlinds (e : PokerEngine) : PokerEngine :=
  let sbIndex := (e.dealerIndex + 1) % e.players.length
  let bbIndex := (e.dealerIndex + 2) % e.players.length
  let e1 :=
    if e.players.length = 2 then
      postBlind ((e.dealerIndex + 1) % e.players.length) e.bigBlind
        (postBlind e.dealerIndex e.smallBlind e)
    else
      postBlind bbIndex e.bigBlind (postBlind sbIndex e.smallBlind e)
  { e1 with
      currentBet := e.bigBlind
      lastRaiserIndex :=
        if e.players.length = 2 then ((e.dealerIndex + 1) % e.players.length : Nat)
        else (bbIndex : Nat) }

/-- Dealing one card from the top of the deck to player `i`. -/
def dealStep (e : PokerEngine) (i : Nat) : PokerEngine :=
  match e.players.get? i with
  | none => e
  | some p =>
    { setPlayer e i { p with holeCards := p.holeCards ++ e.deck.take 1 } with
        deck := e.deck.drop 1 }

/-- One round-robin pass dealing a single card to every player. -/
def dealOneCardEach (e : PokerEngine) : PokerEngine :=
  (List.range e.players.length).foldl dealStep e

/-- `dealHoleCards()`: two round-robin passes. -/
def dealHoleCards (e : PokerEngine) : PokerEngine :=
  dealOneCardEach (dealOneCardEach e)

/-- `startNewHand()` with the shuffled deck injected; the source partially
resets state before the player-count check, and so does this model. -/
def startNewHand (deck : List Card) (e : PokerEngine) : PokerEngine × Bool :=
  let e1 :=
    { e with
        deck := deck
        pot := 0
        communityCards := []
        phase := .preflop
        currentBet := 0
        minRaise := e.bigBlind
        lastRaiserIndex := -1
        isHandComplete := false
        players := (e.players.map Player.reset).filter fun p => 0 < p.chips }
  if e1.players.length < 2 then (e1, false)
  else
    let e2 := { e1 with dealerIndex := (e1.dealerIndex + 1) % e1.players.length }
    let e3 := dealHoleCards (postBlinds e2)
    let firstToAct :=
      if e3.players.length = 2 then e3.dealerIndex
      else (e3.dealerIndex + 3) % e3.players.length
    ({ e3 with currentPlayerIndex := firstToAct }, true)

/-- `dealCommunityCards()`: burn one card, then deal 3 / 1 / 1 by phase. -/
def dealCommunityCards (e : PokerEngine) : PokerEngine :=
  let cardsToDeal :=
    match e.phase with
    | .flop => 3
    | .turn | .river => 1
    | _ => 0
  let deck := e.deck.drop 1
  { e with
      communityCards := e.communityCards ++ deck.take cardsToDeal
      deck := deck.drop cardsToDeal }

/-- `processAction(action, amount)`: returns the validity flag and the
resulting state (unchanged state on a rejected action). -/
def processAction (action : Action) (amount : Int) (e : PokerEngine) :
    Bool × PokerEngine :=
  match e.players.get? e.currentPlayerIndex with
  | none => (false, e)
  | some player =>
    if player.hasFolded ∨ player.isAllIn then (false, e)
    else
      let callAmount := e.currentBet - player.totalBetThisRound
      match action with
      | .fold =>
        (true, setPlayer e e.currentPlayerIndex { player with hasFolded := true })
      | .check =>
        if 0 < callAmount then (false, e) else (true, e)
      | .call =>
        let actualCall := min callAmount player.chips
        let chips := player.chips - actualCall
        let player :=
          { player with
              chips := chips
              totalBetThisRound := player.totalBetThisRound + actualCall
              currentBet := player.totalBetThisRound + actualCall
              isAllIn := if chips = 0 then true else player.isAllIn }
        (true, { setPlayer e e.currentPlayerIndex player with pot := e.pot + actualCall })
      | .bet | .raise =>
        let totalBet := amount
        let additionalAmount := totalBet - player.totalBetThisRound
        if player.chips < additionalAmount then (false, e)
        else if totalBet < e.currentBet + e.minRaise ∧ additionalAmount < player.chips then
          (false, e)
        else
          let raiseBy := totalBet - e.currentBet
          let minRaise := if e.minRaise < raiseBy then raiseBy else e.minRaise
          let chips := player.chips - additionalAmount
          let player :=
            { player with
                chips := chips
                totalBetThisRound := totalBet
                currentBet := totalBet
                isAllIn := if chips = 0 then true else player.isAllIn }
          (true,
            { setPlayer e e.currentPlayerIndex player with
                pot := e.pot + additionalAmount
                currentBet := totalBet
                minRaise := minRaise
                lastRaiserIndex := (e.currentPlayerIndex : Int) })
      | .allIn =>
        let allInAmount := player.chips
        let newTotal := player.totalBetThisRound + allInAmount
        let player :=
          { player with
              chips := 0
              totalBetThisRound := newTotal
              currentBet := newTotal
              isAllIn := true }
        let e1 := { setPlayer e e.currentPlayerIndex player with pot := e.pot + allInAmount }
        let e2 :=
          if e.currentBet < newTotal then
            let raiseAmount := newTotal - e.currentBet
            let e1 :=
              if e.minRaise ≤ raiseAmount then
                { e1 with
                    lastRaiserIndex := (e.currentPlayerIndex : Int)
                    minRaise := raiseAmount }
              else e1
            { e1 with currentBet := newTotal }
          else e1
        (true, e2)
      | .other => (false, e)

/-- The scan loop of `getNextActivePlayerIndex`, with explicit fuel
(`count < this.players.length` in the source). -/
def nextActiveAux (players : List Player) : Nat → Nat → Option Nat
  | _, 0 => none
  | index, fuel + 1 =>
    let player := players.getD index dftPlayer
    if player.hasFolded = false ∧ player.isAllIn = false then some index
    else nextActiveAux players ((index + 1) % players.length) fuel

/-- `getNextActivePlayerIndex()`. -/
def getNextActivePlayerIndex (e : PokerEngine) : Nat :=
  (nextActiveAux e.players ((e.currentPlayerIndex + 1) % e.players.length)
      e.players.length).getD e.currentPlayerIndex

/-- `isBettingRoundComplete()`. -/
def isBettingRoundComplete (e : PokerEngine) : Bool :=
  let activePlayers := e.players.filter fun p => !p.hasFolded && !p.isAllIn
  if activePlayers.length = 0 then true
  else if activePlayers.length = 1 ∧
      1 < (e.players.filter fun p => !p.hasFolded).length ∧
      e.currentBet ≤ (activePlayers.getD 0 dftPlayer).totalBetThisRound then true
  else if activePlayers.any fun p => p.totalBetThisRound < e.currentBet then false
  else if 0 ≤ e.lastRaiserIndex ∧ (e.currentPlayerIndex : Int) = e.lastRaiserIndex then true
  else if e.lastRaiserIndex = -1 ∨ e.phase = .preflop then
    let bbIndex :=
      if e.players.length = 2 then (e.dealerIndex + 1) % e.players.length
      else (e.dealerIndex + 2) % e.players.length
    let bb := e.players.getD bbIndex dftPlayer
    if e.phase = .preflop ∧ bb.hasFolded = false ∧ bb.isAllIn = false ∧
        bb.totalBetThisRound = e.bigBlind ∧ e.currentBet = e.bigBlind ∧
        e.lastRaiserIndex = -1 then
      false
    else
      activePlayers.all fun p => e.currentBet ≤ p.totalBetThisRound
  else true

/-- The result record `advance()` returns; absent fields of the JavaScript
object literals are `false` here (they are only ever truth-tested). -/
structure AdvanceResult where
  isHandComplete : Bool
  phaseChanged : Bool
  showdown : Bool
deriving DecidableEq, Repr

/-- The payout loop of `handleWin`: pay `winAmount` to every listed winner,
plus the odd `remainder` to the first one. -/
def payWinners (winAmount remainder : Int) : Nat → List Nat → List Player → List Player
  | _, [], players => players
  | j, idx :: rest, players =>
    let players :=
      match players.get? idx with
      | none => players
      | some p =>
        players.set idx
          { p with chips := p.chips + winAmount + (if j = 0 then remainder else 0) }
    payWinners winAmount remainder (j + 1) rest players

/-- `handleWin(winners)`, with winners given as player indices. -/
def handleWin (winners : List Nat) (e : PokerEngine) : PokerEngine :=
  let winAmount := e.pot / (winners.length : Int)
  let remainder := e.pot % (winners.length : Int)
  { e with
      isHandComplete := true
      players := payWinners winAmount remainder 0 winners e.players
      pot := 0 }

/-- `handleShowdown()`.  Returns `none` for the crash states of the source
(no non-folded player left, or a hand that evaluates to `null`). -/
def handleShowdown (e : PokerEngine) : Option (PokerEngine × AdvanceResult) :=
  let activeIdx := (List.range e.players.length).filter
    fun i => (e.players.getD i dftPlayer).hasFolded = false
  let evals := activeIdx.map
    fun i => (i, evaluateBestHand (e.players.getD i dftPlayer).holeCards e.communityCards)
  if evals.any fun r => r.2 = none then none
  else
    let handResults := evals.filterMap fun r => r.2.map fun h => (r.1, h)
    let sorted := List.insertionSort
      (fun a b => compareHands b.2 a.2 ≤ 0) handResults
    match sorted with
    | [] => none
    | best :: rest =>
      let winners := best :: rest.takeWhile fun r => compareHands r.2 best.2 = 0
      some (handleWin (winners.map fun w => w.1) e,
        { isHandComplete := true, phaseChanged := false, showdown := true })

/-- The unguarded `while` scan of `advancePhase` looking for the first
player after the dealer who is neither folded nor all-in; `none` when the
fuel runs out, which for fuel `players.length` means the source loop never
terminates. -/
def firstActiveFrom (players : List Player) : Nat → Nat → Option Nat
  | _, 0 => none
  | index, fuel + 1 =>
    let p := players.getD index dftPlayer
    if p.hasFolded ∨ p.isAllIn then
      firstActiveFrom players ((index + 1) % players.length) fuel
    else some index

/-- The betting-round reset at the top of `advancePhase()`. -/
def resetRound (e : PokerEngine) : PokerEngine :=
  { e with
      players := e.players.map fun (p : Player) =>
        { p with totalBetThisRound := 0, currentBet := 0 }
      currentBet := 0
      minRaise := e.bigBlind
      lastRaiserIndex := -1 }

/-- `advancePhase()`: reset the betting round, move to the next phase (or run
the showdown), deal, and seat the pointer after the dealer.  `none` is the
non-terminating scan (or a showdown crash). -/
def advancePhase (e : PokerEngine) : Option (PokerEngine × AdvanceResult) :=
  let e1 := resetRound e
  match e1.phase with
  | .river | .showdown => handleShowdown { e1 with phase := .showdown }
  | _ =>
    let e2 :=
      dealCommunityCards
        { e1 with
            phase :=
              match e1.phase with
              | .preflop => .flop
              | .flop => .turn
              | _ => .river }
    match firstActiveFrom e2.players ((e2.dealerIndex + 1) % e2.players.length)
        e2.players.length with
    | none => none
    | some i =>
      some ({ e2 with currentPlayerIndex := i },
        { isHandComplete := false, phaseChanged := true, showdown := false })

/-- `advance()`. -/
def advance (e : PokerEngine) : Option (PokerEngine × AdvanceResult) :=
  let activePlayers := e.players.filter fun p => !p.hasFolded
  if activePlayers.length = 1 then
    let winnerIdx := e.players.findIdx fun p => !p.hasFolded
    some (handleWin [winnerIdx] e,
      { isHandComplete := true, phaseChanged := false, showdown := false })
  else
    let e := { e with currentPlayerIndex := getNextActivePlayerIndex e }
    if isBettingRoundComplete e then advancePhase e
    else
      some (e, { isHandComplete := false, phaseChanged := false, showdown := false })

/-- The operations a driver can invoke on a running hand; used to state the
whole-hand form of chip conservation.  A diverging `advance` leaves the
state in place (the source never returns from it). -/
inductive EngineOp where
  | blinds
  | act (a : Action) (amount : Int)
  | step
deriving DecidableEq, Repr

def applyOp (e : PokerEngine) : EngineOp → PokerEngine
  | .blinds => postBlinds e
  | .act a amount => (processAction a amount e).2
  | .step =>
    match advance e with
    | some (e1, _) => e1
    | none => e

def applyOps (e : PokerEngine) (ops : List EngineOp) : PokerEngine :=
  ops.foldl applyOp e

end PokerEngine

/-! ### Helper lemmas -/

/-- Total chips still in player stacks. -/
def sumChips (l : List Player) : Int := (l.map fun p => p.chips).sum

/-- The conserved quantity of the engine: stacks plus pot. -/
def chipSum (e : PokerEngine) : Int := sumChips e.players + e.pot

theorem get?_some_getD {α} {l : List α} {i : Nat} {a : α} (d : α)
    (h : l.get? i = some a) : l.getD i d = a := by
  induction l generalizing i with
  | nil => simp at h
  | cons x t ih =>
    cases i with
    | zero => simp_all [List.getD]
    | succ n => simpa [List.getD] using ih (by simpa using h)

theorem get?_some_lt {α} {l : List α} {i : Nat} {a : α}
    (h : l.get? i = some a) : i < l.length := by
  induction l generalizing i with
  | nil => simp at h
  | cons x t ih =>
    cases i with
    | zero => simp
    | succ n => simpa using ih (by simpa using h)

theorem lt_get?_some {α} {l : List α} {i : Nat} (d : α) (h : i < l.length) :
    l.get? i = some (l.getD i d) := by
  induction l generalizing i with
  | nil => simp at h
  | cons x t ih =>
    cases i with
    | zero => simp [List.getD]
    | succ n => simpa [List.getD] using ih (by simpa using h)

theorem get?_set_self {α} {l : List α} {i : Nat} {a : α} (h : i < l.length) :
    (l.set i a).get? i = some a := by
  induction l generalizing i with
  | nil => simp at h
  | cons x t ih =>
    cases i with
    | zero => simp
    | succ n => simpa using ih (by simpa using h)

theorem get?_set_ne {α} {l : List α} {i j : Nat} {a : α} (h : j ≠ i) :
    (l.set i a).get? j = l.get? j := by
  induction l generalizing i j with
  | nil => simp
  | cons x t ih =>
    cases i with
    | zero => cases j with
      | zero => omega
      | succ m => simp
    | succ n =>
      cases j with
      | zero => simp
      | succ m => simpa using ih (by omega)

theorem mod_succ_ne {d n : Nat} (h : 3 ≤ n) : (d + 1) % n ≠ (d + 2) % n := by
  intro heq
  have hd : n ∣ d + 2 - (d + 1) := (Nat.modEq_iff_dvd' (by omega)).mp heq
  have h1 : d + 2 - (d + 1) = 1 := by omega
  rw [h1] at hd
  have := Nat.le_of_dvd (by omega) hd
  omega

theorem sumChips_set (l : List Player) (i : Nat) (p : Player) (h : i < l.length) :
    sumChips (l.set i p) = sumChips l - (l.getD i dftPlayer).chips + p.chips := by
  induction l generalizing i with
  | nil => simp at h
  | cons x t ih =>
    cases i with
    | zero => simp [sumChips, List.getD]; ring
    | succ n =>
      have := ih n (by simpa using h)
      simp [sumChips, List.getD] at this ⊢
      omega

theorem sumChips_map_chips_eq (l : List Player) (f : Player → Player)
    (h : ∀ p, (f p).chips = p.chips) : sumChips (l.map f) = sumChips l := by
  induction l with
  | nil => rfl
  | cons x t ih => simp [sumChips, h] at ih ⊢; omega

namespace PokerEngine

theorem chipSum_postBlind (i : Nat) (amt : Int) (e : PokerEngine) :
    chipSum (postBlind i amt e) = chipSum e := by
  unfold postBlind
  cases hg : e.players.get? i with
  | none => rfl
  | some p =>
    have hlt := get?_some_lt hg
    have hgd := get?_some_getD dftPlayer hg
    simp only [chipSum, setPlayer]
    rw [sumChips_set _ _ _ hlt, hgd]
    ring

theorem chipSum_postBlinds (e : PokerEngine) :
    chipSum (postBlinds e) = chipSum e := by
  have h2 : ∀ (i j : Nat) (a b : Int),
      chipSum (postBlind j b (postBlind i a e)) = chipSum e := by
    intro i j a b; rw [chipSum_postBlind, chipSum_postBlind]
  unfold postBlinds
  split <;> simpa [chipSum] using h2 _ _ _ _

theorem chipSum_processAction (a : Action) (amt : Int) (e : PokerEngine) :
    chipSum (processAction a amt e).2 = chipSum e := by
  unfold processAction
  cases hg : e.players.get? e.currentPlayerIndex with
  | none => rfl
  | some p =>
    have hlt := get?_some_lt hg
    have hgd := get?_some_getD dftPlayer hg
    have hgd2 : e.players[e.currentPlayerIndex]?.getD dftPlayer = p := by
      simpa [List.getD] using hgd
    by_cases hfa : p.hasFolded ∨ p.isAllIn
    · simp [hfa]
    · simp only [hfa, if_false]
      cases a with
      | fold =>
        simp [chipSum, setPlayer, sumChips_set _ _ _ hlt, List.getD, hgd2]
      | check =>
        dsimp only; split <;> rfl
      | call =>
        simp [chipSum, setPlayer, sumChips_set _ _ _ hlt, List.getD, hgd2]
      | bet =>
        dsimp only
        split_ifs <;>
          simp [chipSum, setPlayer, sumChips_set _ _ _ hlt, List.getD, hgd2]
      | raise =>
        dsimp only
        split_ifs <;>
          simp [chipSum, setPlayer, sumChips_set _ _ _ hlt, List.getD, hgd2]
      | allIn =>
        dsimp only
        split_ifs <;>
          simp [chipSum, setPlayer, sumChips_set _ _ _ hlt, List.getD, hgd2]
      | other => rfl

theorem sumChips_payWinners (A R : Int) (w : List Nat) (j : Nat) (players : List Player)
    (hv : ∀ i ∈ w, i < players.length) :
    sumChips (payWinners A R j w players) =
      sumChips players + A * w.length + (if j = 0 ∧ w ≠ [] then R else 0) := by
  induction w generalizing j players with
  | nil => simp [payWinners]
  | cons idx rest ih =>
    have hidx : idx < players.length := hv idx (by simp)
    have hg := lt_get?_some dftPlayer hidx
    unfold payWinners
    rw [hg]
    dsimp only
    rw [ih (j + 1) _
      (fun i hi => by
        simpa using hv i (List.mem_cons_of_mem _ hi))]
    rw [sumChips_set _ _ _ hidx]
    rcases Nat.eq_zero_or_pos j with hj | hj
    · subst hj
      simp
      ring
    · have hj0 : ¬j = 0 := by omega
      have hj1 : ¬j + 1 = 0 := by omega
      simp [hj0, hj1]
      ring

theorem chipSum_handleWin (w : List Nat) (e : PokerEngine) (hne : w ≠ [])
    (hv : ∀ i ∈ w, i < e.players.length) :
    chipSum (handleWin w e) = chipSum e := by
  unfold handleWin
  simp only [chipSum]
  rw [sumChips_payWinners _ _ _ _ _ hv]
  have hk : (w.length : Int) ≠ 0 := by
    have : w.length ≠ 0 := by simpa [List.length_eq_zero] using hne
    exact_mod_cast this
  have hid : e.pot / (w.length : Int) * (w.length : Int) + e.pot % (w.length : Int) = e.pot := by
    rw [mul_comm]; exact Int.ediv_add_emod e.pot (w.length : Int)
  simp [hne]
  linarith [hid]

theorem handleWin_pays_whole_pot (w : List Nat) (e : PokerEngine) (hne : w ≠ [])
    (hv : ∀ i ∈ w, i < e.players.length) :
    (handleWin w e).pot = 0 ∧
      sumChips (handleWin w e).players = sumChips e.players + e.pot := by
  have h := chipSum_handleWin w e hne hv
  have hp : (handleWin w e).pot = 0 := rfl
  refine ⟨hp, ?_⟩
  simp only [chipSum, hp] at h
  omega

theorem handleShowdown_conserves (e : PokerEngine) (p : PokerEngine × AdvanceResult)
    (h : handleShowdown e = some p) : chipSum p.1 = chipSum e := by
  unfold handleShowdown at h
  dsimp only at h
  split at h
  · exact absurd h (by simp)
  · split at h
    · exact absurd h (by simp)
    · rename_i evalsOk best rest hsorted
      injection h with h1
      subst h1
      simp only
      apply chipSum_handleWin
      · simp
      · intro i hi
        simp only [List.mem_map] at hi
        obtain ⟨wpair, hwmem, hwi⟩ := hi
        have hmemsorted : wpair ∈ best :: rest := by
          rcases List.mem_cons.mp hwmem with h0 | htw
          · simp [h0]
          · exact List.mem_cons_of_mem _ ((List.takeWhile_sublist _).subset htw)
        rw [← hsorted] at hmemsorted
        have hmemres := (List.perm_insertionSort _ _).mem_iff.mp hmemsorted
        simp only [List.mem_filterMap] at hmemres
        obtain ⟨r, hrmem, hrfm⟩ := hmemres
        simp only [List.mem_map] at hrmem
        obtain ⟨i0, hi0, hgr⟩ := hrmem
        have hi0lt : i0 < e.players.length := by
          have := List.mem_filter.mp hi0
          simpa using List.mem_range.mp this.1
        cases hr2 : r.2 with
        | none => rw [hr2] at hrfm; simp at hrfm
        | some hv2 =>
          rw [hr2] at hrfm
          have hrfm1 : (r.1, hv2) = wpair := by simpa using hrfm
          have h1 : r.1 = i0 := by rw [← hgr]
          rw [← hwi, ← hrfm1]
          simpa [h1] using hi0lt

theorem chipSum_resetRound (e : PokerEngine) : chipSum (resetRound e) = chipSum e := by
  unfold chipSum resetRound
  simp only
  rw [sumChips_map_chips_eq e.players
    (fun p => { p with totalBetThisRound := 0, currentBet := 0 }) (fun p => rfl)]

theorem chipSum_advancePhase (e : PokerEngine) (p : PokerEngine × AdvanceResult)
    (h : advancePhase e = some p) : chipSum p.1 = chipSum e := by
  have hsd : ∀ h1 : handleShowdown { resetRound e with phase := Phase.showdown } = some p,
      chipSum p.1 = chipSum e := by
    intro h1
    calc chipSum p.1 = chipSum { resetRound e with phase := Phase.showdown } :=
      handleShowdown_conserves _ _ h1
    _ = chipSum (resetRound e) := rfl
    _ = chipSum e := chipSum_resetRound e
  unfold advancePhase at h
  dsimp only at h
  split at h
  · exact hsd h
  · exact hsd h
  · split at h
    · exact absurd h (by simp)
    · injection h with h1
      subst h1
      calc chipSum _ = chipSum (resetRound e) := rfl
      _ = chipSum e := chipSum_resetRound e

theorem chipSum_advance (e : PokerEngine) (p : PokerEngine × AdvanceResult)
    (h : advance e = some p) : chipSum p.1 = chipSum e := by
  unfold advance at h
  dsimp only at h
  split at h
  · rename_i hone
    injection h with h1
    subst h1
    simp only
    apply chipSum_handleWin
    · simp
    · intro i hi
      simp only [List.mem_singleton] at hi
      subst hi
      apply List.findIdx_lt_length_of_exists
      have hex : ∃ q, q ∈ e.players.filter fun p => !p.hasFolded := by
        rcases hq : e.players.filter fun p => !p.hasFolded with _ | ⟨q, t⟩
        · rw [hq] at hone; simp at hone
        · exact ⟨q, by rw [hq]; simp⟩
      obtain ⟨q, hq⟩ := hex
      have hqf := List.mem_filter.mp hq
      exact ⟨q, hqf.1, hqf.2⟩
  · split at h
    · have h2 := chipSum_advancePhase _ _ h
      exact h2
    · injection h with h1
      subst h1
      rfl

theorem chipSum_applyOps (e : PokerEngine) (ops : List EngineOp) :
    chipSum (applyOps e ops) = chipSum e := by
  induction ops generalizing e with
  | nil => rfl
  | cons op t ih =>
    rw [applyOps, List.foldl_cons, ← applyOps, ih]
    cases op with
    | blinds => exact chipSum_postBlinds e
    | act a amount => exact chipSum_processAction a amount e
    | step =>
      simp only [applyOp]
      cases hadv : advance e with
      | none => rfl
      | some p => exact chipSum_advance e p hadv


/-! ### Claim C1: chip conservation -/

/-- Witness data for C1: a two-player state in which one player has folded,
so that `advance` resolves the hand by awarding the pot. -/
def wPlayerA : Player :=
  { chips := 100, holeCards := [], hasFolded := false, isAllIn := false,
    currentBet := 0, totalBetThisRound := 0 }

def wPlayerB : Player := { wPlayerA with chips := 50, hasFolded := true }

def wEngine : PokerEngine := { mkEngine [wPlayerA, wPlayerB] 20 with pot := 30 }

def wEngineAfterAdvance : PokerEngine :=
  { mkEngine [{ wPlayerA with chips := 130 }, wPlayerB] 20 with isHandComplete := true }

/-- C1: chip conservation.  `sum(player.chips) + pot` is unchanged by
`postBlinds`, by any `processAction` (accepted or rejected), by any
terminating `advance` (hence across any sequence of engine operations of a
hand, so the sum immediately before the showdown payout equals the sum at
hand start), and `handleWin` zeroes the pot moving it entirely into the
winners' stacks. -/
theorem chip_conservation (e : PokerEngine) (a : Action) (amt : Int)
    (p : PokerEngine × AdvanceResult) (w : List Nat) (ops : List EngineOp) :
    chipSum (postBlinds e) = chipSum e ∧
    chipSum (processAction a amt e).2 = chipSum e ∧
    (advance e = some p → chipSum p.1 = chipSum e) ∧
    (w ≠ [] → (∀ i ∈ w, i < e.players.length) →
      chipSum (handleWin w e) = chipSum e ∧ (handleWin w e).pot = 0 ∧
      sumChips (handleWin w e).players = sumChips e.players + e.pot) ∧
    chipSum (applyOps e ops) = chipSum e := by
  refine ⟨chipSum_postBlinds e, chipSum_processAction a amt e,
    fun h => chipSum_advance e p h, fun hne hv => ?_, chipSum_applyOps e ops⟩
  obtain ⟨hpot, hsum⟩ := handleWin_pays_whole_pot w e hne hv
  exact ⟨chipSum_handleWin w e hne hv, hpot, hsum⟩

/-- Witness for C1 at a concrete state: every hypothesis discharged by
computation. -/
theorem chip_conservation_witness :
    chipSum (postBlinds wEngine) = chipSum wEngine ∧
    chipSum (processAction .call 0 wEngine).2 = chipSum wEngine ∧
    chipSum wEngineAfterAdvance = chipSum wEngine ∧
    (chipSum (handleWin [0] wEngine) = chipSum wEngine ∧
      (handleWin [0] wEngine).pot = 0 ∧
      sumChips (handleWin [0] wEngine).players = sumChips wEngine.players + wEngine.pot) ∧
    chipSum (applyOps wEngine [.blinds, .act .call 0, .step]) = chipSum wEngine := by
  obtain ⟨h1, h2, h3, h4, h5⟩ :=
    chip_conservation wEngine .call 0
      (wEngineAfterAdvance, { isHandComplete := true, phaseChanged := false, showdown := false })
      [0] [.blinds, .act .call 0, .step]
  exact ⟨h1, h2, h3 (by decide), h4 (by decide) (by decide), h5⟩

/-! ### Claim C5: invalid actions are rejected without state change -/

/-- The invalid situations listed by claim C5, against the current state:
acting for a folded or all-in player, checking below the current bet, a
bet or raise needing more chips than the stack, an under-minimum raise that
is not a full all-in, or an unrecognised action tag. -/
def InvalidActionCase (e : PokerEngine) (a : Action) (amount : Int) : Prop :=
  ∃ p, e.players.get? e.currentPlayerIndex = some p ∧
    (p.hasFolded = true ∨ p.isAllIn = true
      ∨ (a = .check ∧ p.totalBetThisRound < e.currentBet)
      ∨ ((a = .bet ∨ a = .raise) ∧ p.chips < amount - p.totalBetThisRound)
      ∨ ((a = .bet ∨ a = .raise) ∧ amount < e.currentBet + e.minRaise ∧
          amount - p.totalBetThisRound < p.chips)
      ∨ a = .other)

/-- C5: invalid-action atomicity.  In every invalid situation listed by the
claim, `processAction` returns `false` and the state is unchanged. -/
theorem invalid_action_atomic (e : PokerEngine) (a : Action) (amount : Int)
    (h : InvalidActionCase e a amount) :
    (processAction a amount e).1 = false ∧ (processAction a amount e).2 = e := by
  obtain ⟨p, hp, hcase⟩ := h
  unfold processAction
  rw [hp]
  dsimp only
  by_cases hfa : p.hasFolded ∨ p.isAllIn
  · simp [hfa]
  · simp only [hfa, if_false]
    rcases hcase with hc | hc | hc | hc | hc | hc
    · exact absurd (Or.inl hc) hfa
    · exact absurd (Or.inr hc) hfa
    · obtain ⟨ha, hlt⟩ := hc
      subst ha
      dsimp only
      rw [if_pos (by omega)]
      exact ⟨rfl, rfl⟩
    · obtain ⟨ha, hlt⟩ := hc
      rcases ha with ha | ha <;> subst ha <;> dsimp only <;>
        rw [if_pos (by omega)] <;> exact ⟨rfl, rfl⟩
    · obtain ⟨ha, hlt, hsm⟩ := hc
      rcases ha with ha | ha <;> subst ha <;> dsimp only <;>
        by_cases hover : p.chips < amount - p.totalBetThisRound <;>
        first
          | (rw [if_pos hover]; exact ⟨rfl, rfl⟩)
          | (rw [if_neg hover, if_pos ⟨hlt, hsm⟩]; exact ⟨rfl, rfl⟩)
    · subst hc
      exact ⟨rfl, rfl⟩

/-- Witness for C5: checking into a live bet is rejected and changes
nothing. -/
theorem invalid_action_atomic_witness :
    (processAction .check 0 { wEngine with currentBet := 20 }).1 = false ∧
    (processAction .check 0 { wEngine with currentBet := 20 }).2 =
      { wEngine with currentBet := 20 } :=
  invalid_action_atomic { wEngine with currentBet := 20 } .check 0
    ⟨wPlayerA, by decide, by decide⟩

/-! ### Claim C10: short-stack blind posting -/

/-- C10: `postBlind` commits exactly `min(amount, chips)`: the stack drops by
that amount and never below zero, the per-round commitment and round bet
become that amount (they are 0 before any blind is posted), the pot rises by
that amount, and the player ends flagged all-in exactly when the stack hits
zero. -/
theorem postBlind_spec (e : PokerEngine) (i : Nat) (amount : Int) (p : Player)
    (hp : e.players.get? i = some p)
    (hb0 : p.totalBetThisRound = 0) (ha0 : p.isAllIn = false)
    (hc : 0 ≤ p.chips) (hamt : 0 ≤ amount) :
    ∃ q, (postBlind i amount e).players.get? i = some q ∧
      q.totalBetThisRound = min amount p.chips ∧
      q.currentBet = min amount p.chips ∧
      q.chips = p.chips - min amount p.chips ∧
      0 ≤ q.chips ∧
      (postBlind i amount e).pot = e.pot + min amount p.chips ∧
      (q.isAllIn = true ↔ q.chips = 0) := by
  have hlt := get?_some_lt hp
  have hch : (0 : Int) ≤ p.chips - min amount p.chips := by omega
  unfold postBlind
  rw [hp]
  dsimp only [setPlayer]
  refine ⟨_, get?_set_self hlt, rfl, rfl, rfl, hch, rfl, ?_⟩
  dsimp only
  split_ifs with h0
  · simp [h0]
  · simp [ha0, h0]

/-- Witness for C10: posting a 20 blind against a 5-chip stack commits 5,
empties the stack, and flags the player all-in. -/
theorem postBlind_spec_witness :
    ∃ q, (postBlind 0 20 (mkEngine [{ wPlayerA with chips := 5 }] 20)).players.get? 0 = some q ∧
      q.totalBetThisRound = min 20 (5 : Int) ∧
      q.currentBet = min 20 (5 : Int) ∧
      q.chips = 5 - min 20 (5 : Int) ∧
      0 ≤ q.chips ∧
      (postBlind 0 20 (mkEngine [{ wPlayerA with chips := 5 }] 20)).pot = 0 + min 20 (5 : Int) ∧
      (q.isAllIn = true ↔ q.chips = 0) :=
  postBlind_spec (mkEngine [{ wPlayerA with chips := 5 }] 20) 0 20
    { wPlayerA with chips := 5 } (by decide) (by decide) (by decide) (by decide) (by decide)

/-! ### Claim C9: hand start, blinds, and first to act -/

/-- The betting-relevant view of a player: everything except the hole
cards. -/
def betView (p : Player) : Int × Int × Int × Bool × Bool :=
  (p.chips, p.totalBetThisRound, p.currentBet, p.hasFolded, p.isAllIn)

theorem dealStep_view (e : PokerEngine) (i j : Nat) :
    ((dealStep e i).players.get? j).map betView = (e.players.get? j).map betView ∧
    (dealStep e i).players.length = e.players.length ∧
    (dealStep e i).pot = e.pot ∧
    (dealStep e i).dealerIndex = e.dealerIndex ∧
    (dealStep e i).bigBlind = e.bigBlind := by
  unfold dealStep
  cases hg : e.players.get? i with
  | none => exact ⟨rfl, rfl, rfl, rfl, rfl⟩
  | some p =>
    refine ⟨?_, by simp [setPlayer], rfl, rfl, rfl⟩
    by_cases hij : j = i
    · subst hij
      have h1 := get?_set_self
        (a := { p with holeCards := p.holeCards ++ e.deck.take 1 }) (get?_some_lt hg)
      simp only [setPlayer]
      rw [h1, hg]
      rfl
    · simp only [setPlayer]
      rw [get?_set_ne hij]

theorem dealFold_view (idxs : List Nat) (e : PokerEngine) (j : Nat) :
    ((idxs.foldl dealStep e).players.get? j).map betView = (e.players.get? j).map betView ∧
    (idxs.foldl dealStep e).players.length = e.players.length ∧
    (idxs.foldl dealStep e).pot = e.pot ∧
    (idxs.foldl dealStep e).dealerIndex = e.dealerIndex ∧
    (idxs.foldl dealStep e).bigBlind = e.bigBlind := by
  induction idxs generalizing e with
  | nil => exact ⟨rfl, rfl, rfl, rfl, rfl⟩
  | cons i t ih =>
    simp only [List.foldl_cons]
    obtain ⟨v1, l1, p1, d1, b1⟩ := dealStep_view e i j
    obtain ⟨v2, l2, p2, d2, b2⟩ := ih (dealStep e i)
    exact ⟨v2.trans v1, l2.trans l1, p2.trans p1, d2.trans d1, b2.trans b1⟩

theorem dealHoleCards_view (e : PokerEngine) (j : Nat) :
    ((dealHoleCards e).players.get? j).map betView = (e.players.get? j).map betView ∧
    (dealHoleCards e).players.length = e.players.length ∧
    (dealHoleCards e).pot = e.pot ∧
    (dealHoleCards e).dealerIndex = e.dealerIndex ∧
    (dealHoleCards e).bigBlind = e.bigBlind := by
  unfold dealHoleCards dealOneCardEach
  obtain ⟨v1, l1, p1, d1, b1⟩ := dealFold_view (List.range e.players.length) e j
  obtain ⟨v2, l2, p2, d2, b2⟩ :=
    dealFold_view (List.range ((List.range e.players.length).foldl dealStep e).players.length)
      ((List.range e.players.length).foldl dealStep e) j
  exact ⟨v2.trans v1, l2.trans l1, p2.trans p1, d2.trans d1, b2.trans b1⟩

theorem postBlind_other (i : Nat) (amt : Int) (e : PokerEngine) (j : Nat) (h : j ≠ i) :
    (postBlind i amt e).players.get? j = e.players.get? j := by
  unfold postBlind
  cases hg : e.players.get? i with
  | none => rfl
  | some p => simp only [setPlayer]; rw [get?_set_ne h]

theorem postBlind_fields (i : Nat) (amt : Int) (e : PokerEngine) :
    (postBlind i amt e).players.length = e.players.length ∧
    (postBlind i amt e).dealerIndex = e.dealerIndex ∧
    (postBlind i amt e).bigBlind = e.bigBlind ∧
    (postBlind i amt e).smallBlind = e.smallBlind := by
  unfold postBlind
  cases hg : e.players.get? i with
  | none => exact ⟨rfl, rfl, rfl, rfl⟩
  | some p => exact ⟨by simp [setPlayer], rfl, rfl, rfl⟩

/-- Posting two blinds to two distinct seats: each seat commits the min of
its blind and its stack. -/
theorem doublePost_spec (e : PokerEngine) (i1 i2 : Nat) (a1 a2 : Int)
    (hne : i1 ≠ i2) (p1 p2 : Player)
    (h1 : e.players.get? i1 = some p1) (h2 : e.players.get? i2 = some p2)
    (hb1 : p1.totalBetThisRound = 0) (ha1 : p1.isAllIn = false) (hc1 : 0 ≤ p1.chips)
    (hb2 : p2.totalBetThisRound = 0) (ha2 : p2.isAllIn = false) (hc2 : 0 ≤ p2.chips)
    (hm1 : 0 ≤ a1) (hm2 : 0 ≤ a2) :
    ∃ q1 q2,
      (postBlind i2 a2 (postBlind i1 a1 e)).players.get? i1 = some q1 ∧
      (postBlind i2 a2 (postBlind i1 a1 e)).players.get? i2 = some q2 ∧
      q1.totalBetThisRound = min a1 p1.chips ∧
      q1.chips = p1.chips - min a1 p1.chips ∧
      q2.totalBetThisRound = min a2 p2.chips ∧
      q2.chips = p2.chips - min a2 p2.chips := by
  obtain ⟨q1, hq1g, hq1b, _, hq1c, _, _, _⟩ := postBlind_spec e i1 a1 p1 h1 hb1 ha1 hc1 hm1
  have h2b : (postBlind i1 a1 e).players.get? i2 = some p2 := by
    rw [postBlind_other i1 a1 e i2 (fun hh => hne hh.symm)]
    exact h2
  obtain ⟨q2, hq2g, hq2b, _, hq2c, _, _, _⟩ :=
    postBlind_spec (postBlind i1 a1 e) i2 a2 p2 h2b hb2 ha2 hc2 hm2
  refine ⟨q1, q2, ?_, hq2g, hq1b, hq1c, hq2b, hq2c⟩
  rw [postBlind_other i2 a2 _ i1 hne]
  exact hq1g

theorem funded_fields (e : PokerEngine) (p : Player)
    (hp : p ∈ (e.players.map Player.reset).filter fun q => 0 < q.chips) :
    p.totalBetThisRound = 0 ∧ p.isAllIn = false ∧ 0 < p.chips := by
  have hmem := List.mem_filter.mp hp
  obtain ⟨orig, _, horig⟩ := List.mem_map.mp hmem.1
  refine ⟨?_, ?_, by simpa using hmem.2⟩ <;> rw [← horig] <;> rfl

theorem postBlinds_two (e : PokerEngine) (h2 : e.players.length = 2) :
    postBlinds e =
      { postBlind ((e.dealerIndex + 1) % e.players.length) e.bigBlind
          (postBlind e.dealerIndex e.smallBlind e) with
          currentBet := e.bigBlind
          lastRaiserIndex := (((e.dealerIndex + 1) % e.players.length : Nat) : Int) } := by
  unfold postBlinds
  dsimp only
  rw [if_pos h2, if_pos h2]

theorem postBlinds_many (e : PokerEngine) (h2 : e.players.length ≠ 2) :
    postBlinds e =
      { postBlind ((e.dealerIndex + 2) % e.players.length) e.bigBlind
          (postBlind ((e.dealerIndex + 1) % e.players.length) e.smallBlind e) with
          currentBet := e.bigBlind
          lastRaiserIndex := (((e.dealerIndex + 2) % e.players.length : Nat) : Int) } := by
  unfold postBlinds
  dsimp only
  rw [if_neg h2, if_neg h2]

theorem startNewHand_eq (deck : List Card) (e : PokerEngine)
    (h : ¬ (((e.players.map Player.reset).filter fun p => 0 < p.chips).length < 2)) :
    startNewHand deck e =
      (let e2 : PokerEngine :=
        { e with
            deck := deck
            pot := 0
            communityCards := []
            phase := .preflop
            currentBet := 0
            minRaise := e.bigBlind
            lastRaiserIndex := -1
            isHandComplete := false
            players := (e.players.map Player.reset).filter (fun p => 0 < p.chips)
            dealerIndex := (e.dealerIndex + 1) %
              ((e.players.map Player.reset).filter (fun p => 0 < p.chips)).length }
       let e3 := dealHoleCards (postBlinds e2)
       ({ e3 with currentPlayerIndex :=
          if e3.players.length = 2 then e3.dealerIndex
          else (e3.dealerIndex + 3) % e3.players.length }, true)) := by
  unfold startNewHand
  dsimp only
  rw [if_neg h]

theorem postBlinds_fields (e : PokerEngine) :
    (postBlinds e).players.length = e.players.length ∧
    (postBlinds e).dealerIndex = e.dealerIndex := by
  unfold postBlinds
  dsimp only
  split <;>
    exact ⟨((postBlind_fields _ _ _).1).trans (postBlind_fields _ _ _).1,
      ((postBlind_fields _ _ _).2.1).trans (postBlind_fields _ _ _).2.1⟩

/-- The heads-up branch of `startNewHand`: the (new) dealer posts the small
blind `bigBlind / 2`, the other seat posts the big blind, and the dealer is
first to act. -/
theorem startNewHand_two (deck : List Card) (e : PokerEngine)
    (funded : List Player) (d : Nat)
    (hf : funded = (e.players.map Player.reset).filter (fun p => 0 < p.chips))
    (h2 : funded.length = 2)
    (hd : d = (e.dealerIndex + 1) % funded.length)
    (hsb : e.smallBlind = e.bigBlind / 2)
    (hbb : 0 ≤ e.bigBlind) :
    (startNewHand deck e).2 = true ∧
    (startNewHand deck e).1.players.length = 2 ∧
    (startNewHand deck e).1.dealerIndex = d ∧
    (startNewHand deck e).1.currentPlayerIndex = d ∧
    ∃ q1 q2,
      (startNewHand deck e).1.players.get? d = some q1 ∧
      (startNewHand deck e).1.players.get? ((d + 1) % 2) = some q2 ∧
      q1.totalBetThisRound =
        min (e.bigBlind / 2) ((funded.getD d dftPlayer).chips) ∧
      q1.chips = (funded.getD d dftPlayer).chips - q1.totalBetThisRound ∧
      q2.totalBetThisRound =
        min e.bigBlind ((funded.getD ((d + 1) % 2) dftPlayer).chips) ∧
      q2.chips = (funded.getD ((d + 1) % 2) dftPlayer).chips - q2.totalBetThisRound := by
  have hge : ¬ ((e.players.map Player.reset).filter (fun p => 0 < p.chips)).length < 2 := by
    rw [← hf]; omega
  have hd2 : d < 2 := by rw [hd, h2]; omega
  rw [startNewHand_eq deck e hge]
  dsimp only
  rw [← hf, ← hd]
  set E2 : PokerEngine :=
    { e with
        deck := deck
        pot := 0
        communityCards := []
        phase := .preflop
        currentBet := 0
        minRaise := e.bigBlind
        lastRaiserIndex := -1
        isHandComplete := false
        players := funded
        dealerIndex := d } with hE2
  have hE2p : E2.players = funded := rfl
  have hE2d : E2.dealerIndex = d := rfl
  have hE2sb : E2.smallBlind = e.smallBlind := rfl
  have hE2bb : E2.bigBlind = e.bigBlind := rfl
  have hlen2 : E2.players.length = 2 := by rw [hE2p, h2]
  have hpb := postBlinds_two E2 hlen2
  rw [hE2d, hE2p, h2, hE2sb, hE2bb, hsb] at hpb
  have hp1 : E2.players.get? d = some (funded.getD d dftPlayer) := by
    rw [hE2p]; exact lt_get?_some dftPlayer (by omega)
  have hp2 : E2.players.get? ((d + 1) % 2) = some (funded.getD ((d + 1) % 2) dftPlayer) := by
    rw [hE2p]; exact lt_get?_some dftPlayer (by omega)
  have hm1 : funded.getD d dftPlayer ∈ funded :=
    List.get?_mem (lt_get?_some dftPlayer (by omega))
  have hm2 : funded.getD ((d + 1) % 2) dftPlayer ∈ funded :=
    List.get?_mem (lt_get?_some dftPlayer (by omega))
  have hm1f : funded.getD d dftPlayer ∈
      (e.players.map Player.reset).filter (fun p => 0 < p.chips) := by
    rw [← hf]; exact hm1
  have hm2f : funded.getD ((d + 1) % 2) dftPlayer ∈
      (e.players.map Player.reset).filter (fun p => 0 < p.chips) := by
    rw [← hf]; exact hm2
  obtain ⟨hb1, ha1, hc1⟩ := funded_fields e _ hm1f
  obtain ⟨hb2, ha2, hc2⟩ := funded_fields e _ hm2f
  have hneq : d ≠ (d + 1) % 2 := by omega
  obtain ⟨q1, q2, hg1, hg2, hq1b, hq1c, hq2b, hq2c⟩ :=
    doublePost_spec E2 d ((d + 1) % 2) (e.bigBlind / 2) e.bigBlind hneq _ _ hp1 hp2
      hb1 ha1 (le_of_lt hc1) hb2 ha2 (le_of_lt hc2)
      (Int.ediv_nonneg hbb (by norm_num)) hbb
  have hdvr1 : ((postBlinds E2).players.get? d).map betView = some (betView q1) := by
    rw [hpb]; dsimp only; rw [hg1]; rfl
  have hdvr2 : ((postBlinds E2).players.get? ((d + 1) % 2)).map betView =
      some (betView q2) := by
    rw [hpb]; dsimp only; rw [hg2]; rfl
  have hdv1 := ((dealHoleCards_view (postBlinds E2) d).1).trans hdvr1
  have hdv2 := ((dealHoleCards_view (postBlinds E2) ((d + 1) % 2)).1).trans hdvr2
  obtain ⟨q1f, hq1f, hbv1⟩ := Option.map_eq_some'.mp hdv1
  obtain ⟨q2f, hq2f, hbv2⟩ := Option.map_eq_some'.mp hdv2
  obtain ⟨hc1f, hb1f, _, _, _⟩ : q1f.chips = q1.chips ∧
      q1f.totalBetThisRound = q1.totalBetThisRound ∧ q1f.currentBet = q1.currentBet ∧
      q1f.hasFolded = q1.hasFolded ∧ q1f.isAllIn = q1.isAllIn := by
    simpa [betView, Prod.ext_iff] using hbv1
  obtain ⟨hc2f, hb2f, _, _, _⟩ : q2f.chips = q2.chips ∧
      q2f.totalBetThisRound = q2.totalBetThisRound ∧ q2f.currentBet = q2.currentBet ∧
      q2f.hasFolded = q2.hasFolded ∧ q2f.isAllIn = q2.isAllIn := by
    simpa [betView, Prod.ext_iff] using hbv2
  have hlen3 : (dealHoleCards (postBlinds E2)).players.length = 2 :=
    ((dealHoleCards_view (postBlinds E2) 0).2.1).trans ((postBlinds_fields E2).1.trans hlen2)
  have hdl3 : (dealHoleCards (postBlinds E2)).dealerIndex = d :=
    ((dealHoleCards_view (postBlinds E2) 0).2.2.2.1).trans ((postBlinds_fields E2).2.trans hE2d)
  refine ⟨rfl, ?_, ?_, ?_, q1f, q2f, ?_, ?_, ?_, ?_, ?_, ?_⟩
  · exact hlen3
  · exact hdl3
  · dsimp only
    rw [if_pos hlen3]
    exact hdl3
  · exact hq1f
  · exact hq2f
  · rw [hb1f, hq1b]
  · rw [hc1f, hq1c, hb1f, hq1b]
  · rw [hb2f, hq2b]
  · rw [hc2f, hq2c, hb2f, hq2b]

/-- The multi-way branch of `startNewHand`: the seat after the (new) dealer
posts the small blind, the next seat the big blind, and the seat after the
big blind acts first. -/
theorem startNewHand_many (deck : List Card) (e : PokerEngine)
    (funded : List Player) (d : Nat)
    (hf : funded = (e.players.map Player.reset).filter (fun p => 0 < p.chips))
    (h3 : 3 ≤ funded.length)
    (hd : d = (e.dealerIndex + 1) % funded.length)
    (hsb : e.smallBlind = e.bigBlind / 2)
    (hbb : 0 ≤ e.bigBlind) :
    (startNewHand deck e).2 = true ∧
    (startNewHand deck e).1.players.length = funded.length ∧
    (startNewHand deck e).1.dealerIndex = d ∧
    (startNewHand deck e).1.currentPlayerIndex = (d + 3) % funded.length ∧
    ∃ q1 q2,
      (startNewHand deck e).1.players.get? ((d + 1) % funded.length) = some q1 ∧
      (startNewHand deck e).1.players.get? ((d + 2) % funded.length) = some q2 ∧
      q1.totalBetThisRound =
        min (e.bigBlind / 2) ((funded.getD ((d + 1) % funded.length) dftPlayer).chips) ∧
      q1.chips = (funded.getD ((d + 1) % funded.length) dftPlayer).chips -
        q1.totalBetThisRound ∧
      q2.totalBetThisRound =
        min e.bigBlind ((funded.getD ((d + 2) % funded.length) dftPlayer).chips) ∧
      q2.chips = (funded.getD ((d + 2) % funded.length) dftPlayer).chips -
        q2.totalBetThisRound := by
  have hge : ¬ ((e.players.map Player.reset).filter (fun p => 0 < p.chips)).length < 2 := by
    rw [← hf]; omega
  rw [startNewHand_eq deck e hge]
  dsimp only
  rw [← hf, ← hd]
  set E2 : PokerEngine :=
    { e with
        deck := deck
        pot := 0
        communityCards := []
        phase := .preflop
        currentBet := 0
        minRaise := e.bigBlind
        lastRaiserIndex := -1
        isHandComplete := false
        players := funded
        dealerIndex := d } with hE2
  have hE2p : E2.players = funded := rfl
  have hE2d : E2.dealerIndex = d := rfl
  have hE2sb : E2.smallBlind = e.smallBlind := rfl
  have hE2bb : E2.bigBlind = e.bigBlind := rfl
  have hlenn : E2.players.length = funded.length := by rw [hE2p]
  have hlen2 : ¬ E2.players.length = 2 := by rw [hlenn]; omega
  have hpb := postBlinds_many E2 hlen2
  rw [hE2d, hE2p, hE2sb, hE2bb, hsb] at hpb
  have hp1 : E2.players.get? ((d + 1) % funded.length) =
      some (funded.getD ((d + 1) % funded.length) dftPlayer) := by
    rw [hE2p]; exact lt_get?_some dftPlayer (Nat.mod_lt _ (by omega))
  have hp2 : E2.players.get? ((d + 2) % funded.length) =
      some (funded.getD ((d + 2) % funded.length) dftPlayer) := by
    rw [hE2p]; exact lt_get?_some dftPlayer (Nat.mod_lt _ (by omega))
  have hm1 : funded.getD ((d + 1) % funded.length) dftPlayer ∈ funded :=
    List.get?_mem (lt_get?_some dftPlayer (Nat.mod_lt _ (by omega)))
  have hm2 : funded.getD ((d + 2) % funded.length) dftPlayer ∈ funded :=
    List.get?_mem (lt_get?_some dftPlayer (Nat.mod_lt _ (by omega)))
  have hm1f : funded.getD ((d + 1) % funded.length) dftPlayer ∈
      (e.players.map Player.reset).filter (fun p => 0 < p.chips) := by
    rw [← hf]; exact hm1
  have hm2f : funded.getD ((d + 2) % funded.length) dftPlayer ∈
      (e.players.map Player.reset).filter (fun p => 0 < p.chips) := by
    rw [← hf]; exact hm2
  obtain ⟨hb1, ha1, hc1⟩ := funded_fields e _ hm1f
  obtain ⟨hb2, ha2, hc2⟩ := funded_fields e _ hm2f
  have hneq : (d + 1) % funded.length ≠ (d + 2) % funded.length := mod_succ_ne h3
  obtain ⟨q1, q2, hg1, hg2, hq1b, hq1c, hq2b, hq2c⟩ :=
    doublePost_spec E2 ((d + 1) % funded.length) ((d + 2) % funded.length)
      (e.bigBlind / 2) e.bigBlind hneq _ _ hp1 hp2
      hb1 ha1 (le_of_lt hc1) hb2 ha2 (le_of_lt hc2)
      (Int.ediv_nonneg hbb (by norm_num)) hbb
  have hdvr1 : ((postBlinds E2).players.get? ((d + 1) % funded.length)).map betView =
      some (betView q1) := by
    rw [hpb]; dsimp only; rw [hg1]; rfl
  have hdvr2 : ((postBlinds E2).players.get? ((d + 2) % funded.length)).map betView =
      some (betView q2) := by
    rw [hpb]; dsimp only; rw [hg2]; rfl
  have hdv1 := ((dealHoleCards_view (postBlinds E2) ((d + 1) % funded.length)).1).trans hdvr1
  have hdv2 := ((dealHoleCards_view (postBlinds E2) ((d + 2) % funded.length)).1).trans hdvr2
  obtain ⟨q1f, hq1f, hbv1⟩ := Option.map_eq_some'.mp hdv1
  obtain ⟨q2f, hq2f, hbv2⟩ := Option.map_eq_some'.mp hdv2
  obtain ⟨hc1f, hb1f, _, _, _⟩ : q1f.chips = q1.chips ∧
      q1f.totalBetThisRound = q1.totalBetThisRound ∧ q1f.currentBet = q1.currentBet ∧
      q1f.hasFolded = q1.hasFolded ∧ q1f.isAllIn = q1.isAllIn := by
    simpa [betView, Prod.ext_iff] using hbv1
  obtain ⟨hc2f, hb2f, _, _, _⟩ : q2f.chips = q2.chips ∧
      q2f.totalBetThisRound = q2.totalBetThisRound ∧ q2f.currentBet = q2.currentBet ∧
      q2f.hasFolded = q2.hasFolded ∧ q2f.isAllIn = q2.isAllIn := by
    simpa [betView, Prod.ext_iff] using hbv2
  have hlen3 : (dealHoleCards (postBlinds E2)).players.length = funded.length :=
    ((dealHoleCards_view (postBlinds E2) 0).2.1).trans ((postBlinds_fields E2).1.trans hlenn)
  have hdl3 : (dealHoleCards (postBlinds E2)).dealerIndex = d :=
    ((dealHoleCards_view (postBlinds E2) 0).2.2.2.1).trans ((postBlinds_fields E2).2.trans hE2d)
  refine ⟨rfl, ?_, ?_, ?_, q1f, q2f, ?_, ?_, ?_, ?_, ?_, ?_⟩
  · exact hlen3
  · exact hdl3
  · dsimp only
    rw [if_neg (by rw [hlen3]; omega), hdl3, hlen3]
  · exact hq1f
  · exact hq2f
  · rw [hb1f, hq1b]
  · rw [hc1f, hq1c, hb1f, hq1b]
  · rw [hb2f, hq2b]
  · rw [hc2f, hq2c, hb2f, hq2b]

theorem startNewHand_fail (deck : List Card) (e : PokerEngine)
    (h : ((e.players.map Player.reset).filter (fun p => 0 < p.chips)).length < 2) :
    (startNewHand deck e).2 = false := by
  unfold startNewHand
  dsimp only
  rw [if_pos h]

/-- C9: `startNewHand` filters to the funded players and fails below 2 of
them; with exactly 2 the (advanced) dealer posts the small blind
`bigBlind / 2` and acts first while the other seat posts the big blind;
with 3 or more the seats after the dealer post small and big blind and the
seat after the big blind acts first.  Posted amounts are capped by the
stack (`min`). -/
theorem startNewHand_spec (deck : List Card) (e : PokerEngine)
    (funded : List Player) (d : Nat)
    (hf : funded = (e.players.map Player.reset).filter (fun p => 0 < p.chips))
    (hd : d = (e.dealerIndex + 1) % funded.length)
    (hsb : e.smallBlind = e.bigBlind / 2)
    (hbb : 0 ≤ e.bigBlind) :
    (funded.length < 2 → (startNewHand deck e).2 = false) ∧
    (funded.length = 2 →
      (startNewHand deck e).2 = true ∧
      (startNewHand deck e).1.players.length = 2 ∧
      (startNewHand deck e).1.dealerIndex = d ∧
      (startNewHand deck e).1.currentPlayerIndex = d ∧
      ∃ q1 q2,
        (startNewHand deck e).1.players.get? d = some q1 ∧
        (startNewHand deck e).1.players.get? ((d + 1) % 2) = some q2 ∧
        q1.totalBetThisRound =
          min (e.bigBlind / 2) ((funded.getD d dftPlayer).chips) ∧
        q1.chips = (funded.getD d dftPlayer).chips - q1.totalBetThisRound ∧
        q2.totalBetThisRound =
          min e.bigBlind ((funded.getD ((d + 1) % 2) dftPlayer).chips) ∧
        q2.chips = (funded.getD ((d + 1) % 2) dftPlayer).chips - q2.totalBetThisRound) ∧
    (3 ≤ funded.length →
      (startNewHand deck e).2 = true ∧
      (startNewHand deck e).1.players.length = funded.length ∧
      (startNewHand deck e).1.dealerIndex = d ∧
      (startNewHand deck e).1.currentPlayerIndex = (d + 3) % funded.length ∧
      ∃ q1 q2,
        (startNewHand deck e).1.players.get? ((d + 1) % funded.length) = some q1 ∧
        (startNewHand deck e).1.players.get? ((d + 2) % funded.length) = some q2 ∧
        q1.totalBetThisRound =
          min (e.bigBlind / 2) ((funded.getD ((d + 1) % funded.length) dftPlayer).chips) ∧
        q1.chips = (funded.getD ((d + 1) % funded.length) dftPlayer).chips -
          q1.totalBetThisRound ∧
        q2.totalBetThisRound =
          min e.bigBlind ((funded.getD ((d + 2) % funded.length) dftPlayer).chips) ∧
        q2.chips = (funded.getD ((d + 2) % funded.length) dftPlayer).chips -
          q2.totalBetThisRound) := by
  refine ⟨fun h => startNewHand_fail deck e (by rw [← hf]; exact h),
    fun h2 => startNewHand_two deck e funded d hf h2 hd hsb hbb,
    fun h3 => startNewHand_many deck e funded d hf h3 hd hsb hbb⟩

/-- Witness for C9: a 2-player and a 3-player hand start from 100-chip
stacks and big blind 20. -/
theorem startNewHand_spec_witness :
    ((startNewHand createDeck (mkEngine [wPlayerA, wPlayerA] 20)).2 = true ∧
      (startNewHand createDeck (mkEngine [wPlayerA, wPlayerA] 20)).1.dealerIndex = 1 ∧
      (startNewHand createDeck (mkEngine [wPlayerA, wPlayerA] 20)).1.currentPlayerIndex = 1) ∧
    ((startNewHand createDeck (mkEngine [wPlayerA, wPlayerA, wPlayerA] 20)).2 = true ∧
      (startNewHand createDeck
        (mkEngine [wPlayerA, wPlayerA, wPlayerA] 20)).1.currentPlayerIndex = (1 + 3) % 3) := by
  constructor
  · have h := (startNewHand_spec createDeck (mkEngine [wPlayerA, wPlayerA] 20)
      (((mkEngine [wPlayerA, wPlayerA] 20).players.map Player.reset).filter
        (fun p => 0 < p.chips))
      1 rfl (by decide) rfl (by decide)).2.1 (by decide)
    exact ⟨h.1, h.2.2.1, h.2.2.2.1⟩
  · have h := (startNewHand_spec createDeck (mkEngine [wPlayerA, wPlayerA, wPlayerA] 20)
      (((mkEngine [wPlayerA, wPlayerA, wPlayerA] 20).players.map Player.reset).filter
        (fun p => 0 < p.chips))
      1 rfl (by decide) rfl (by decide)).2.2 (by decide)
    refine ⟨h.1, ?_⟩
    have h4 := h.2.2.2.1
    simpa using h4

/-! ### Claim C3: all-in raises and reopening the betting -/

/-- Seat already committed for 100 this round with a 900 stack. -/
def cexCaller : Player :=
  { chips := 900, holeCards := [], hasFolded := false, isAllIn := false,
    currentBet := 100, totalBetThisRound := 100 }

/-- Seat to act with a 110 stack and nothing committed this round. -/
def cexShort : Player :=
  { chips := 110, holeCards := [], hasFolded := false, isAllIn := false,
    currentBet := 0, totalBetThisRound := 0 }

/-- Player at seat 0 bet 100 (current bet 100, minimum raise 100, last
aggressor seat 0), seat 2 called, and seat 1 is to act with only 110. -/
def cexEngine : PokerEngine :=
  { mkEngine [cexCaller, cexShort, cexCaller] 20 with
      pot := 200
      currentBet := 100
      minRaise := 100
      currentPlayerIndex := 1
      lastRaiserIndex := 0 }

/-- Counterexample to C3: a full-stack RAISE to 110 — an all-in exceeding
the 100 bet by only 10, below the minimum raise of 100 — is accepted, and
the all-in player at seat 1 DOES become the recorded last aggressor
(previously seat 0), contradicting the claim for the BET/RAISE path. -/
theorem short_allin_raise_reopens :
    (processAction .raise 110 cexEngine).1 = true ∧
    (cexEngine.players.getD 1 dftPlayer).chips =
      110 - (cexEngine.players.getD 1 dftPlayer).totalBetThisRound ∧
    (110 : Int) - cexEngine.currentBet < cexEngine.minRaise ∧
    0 < (110 : Int) - cexEngine.currentBet ∧
    cexEngine.lastRaiserIndex = 0 ∧
    (processAction .raise 110 cexEngine).2.lastRaiserIndex = 1 ∧
    ((processAction .raise 110 cexEngine).2.players.getD 1 dftPlayer).isAllIn = true ∧
    (processAction .raise 110 cexEngine).2.minRaise = cexEngine.minRaise := by
  decide

/-- C3 (amended): for the dedicated ALL_IN action the claim holds — a short
all-in leaves the recorded aggressor and the minimum raise unchanged, and an
all-in raising by at least the minimum raise becomes the aggressor and sets
the minimum raise to its raise amount.  A full-stack BET/RAISE below the
minimum raise is accepted and leaves the minimum raise unchanged, but it
does record the all-in player as the last aggressor. -/
theorem allin_reopen_spec (e : PokerEngine) (p : Player) (amount : Int)
    (hp : e.players.get? e.currentPlayerIndex = some p)
    (hnf : p.hasFolded = false) (hna : p.isAllIn = false) :
    (p.totalBetThisRound + p.chips - e.currentBet < e.minRaise →
      (processAction .allIn amount e).2.lastRaiserIndex = e.lastRaiserIndex ∧
      (processAction .allIn amount e).2.minRaise = e.minRaise) ∧
    (e.currentBet < p.totalBetThisRound + p.chips →
      e.minRaise ≤ p.totalBetThisRound + p.chips - e.currentBet →
      (processAction .allIn amount e).2.lastRaiserIndex = (e.currentPlayerIndex : Int) ∧
      (processAction .allIn amount e).2.minRaise =
        p.totalBetThisRound + p.chips - e.currentBet) ∧
    (amount - p.totalBetThisRound = p.chips →
      amount - e.currentBet < e.minRaise →
      (processAction .raise amount e).1 = true ∧
      (processAction .raise amount e).2.minRaise = e.minRaise ∧
      (processAction .raise amount e).2.lastRaiserIndex = (e.currentPlayerIndex : Int)) := by
  have hfa : ¬ (p.hasFolded ∨ p.isAllIn) := by simp [hnf, hna]
  refine ⟨fun hshort => ?_, fun hover hfull => ?_, fun hstack hunder => ?_⟩
  · unfold processAction
    rw [hp]
    dsimp only
    rw [if_neg hfa]
    split_ifs with h1 h2 <;> first | exact ⟨rfl, rfl⟩ | (exfalso; omega)
  · unfold processAction
    rw [hp]
    dsimp only
    rw [if_neg hfa]
    split_ifs with h1 h2 <;> first | exact ⟨rfl, rfl⟩ | (exfalso; omega)
  · unfold processAction
    rw [hp]
    dsimp only
    rw [if_neg hfa]
    rw [if_neg (by omega : ¬ p.chips < amount - p.totalBetThisRound),
      if_neg (by omega : ¬ (amount < e.currentBet + e.minRaise ∧
        amount - p.totalBetThisRound < p.chips)),
      if_neg (by omega : ¬ e.minRaise < amount - e.currentBet)]
    exact ⟨rfl, rfl, rfl⟩

/-- With a smaller minimum raise the same stack is a full raise. -/
def cexEngineSmallMin : PokerEngine := { cexEngine with minRaise := 5 }

/-- Witness for the amended C3 at concrete states: a short ALL_IN keeps
aggressor and minimum raise, a full ALL_IN updates both, and a full-stack
short RAISE keeps the minimum raise but takes the aggressor slot. -/
theorem allin_reopen_spec_witness :
    ((processAction .allIn 0 cexEngine).2.lastRaiserIndex = cexEngine.lastRaiserIndex ∧
      (processAction .allIn 0 cexEngine).2.minRaise = cexEngine.minRaise) ∧
    ((processAction .allIn 0 cexEngineSmallMin).2.lastRaiserIndex = 1 ∧
      (processAction .allIn 0 cexEngineSmallMin).2.minRaise = 10) ∧
    ((processAction .raise 110 cexEngine).1 = true ∧
      (processAction .raise 110 cexEngine).2.minRaise = cexEngine.minRaise ∧
      (processAction .raise 110 cexEngine).2.lastRaiserIndex = 1) := by
  refine ⟨(allin_reopen_spec cexEngine cexShort 0 (by decide) rfl rfl).1 (by decide),
    ?_, (allin_reopen_spec cexEngine cexShort 110 (by decide) rfl rfl).2.2
      (by decide) (by decide)⟩
  exact (allin_reopen_spec cexEngineSmallMin cexShort 0 (by decide) rfl rfl).2.1
    (by decide) (by decide)

/-! ### Claim C2: the big-blind option -/

/-- Three 100-chip players, big blind 20. -/
def bbDemo0 : PokerEngine := mkEngine [wPlayerA, wPlayerA, wPlayerA] 20

def bbDemoS0 : PokerEngine := (startNewHand createDeck bbDemo0).1

def bbDemoS1 : PokerEngine := (processAction .call 0 bbDemoS0).2

def bbDemoS2 : PokerEngine :=
  ((advance bbDemoS1).getD (bbDemoS1, ⟨false, false, false⟩)).1

def bbDemoS3 : PokerEngine := (processAction .call 0 bbDemoS2).2

/-- C2 fails on the code: with three players and blinds 10/20, after the two
players in front of the big blind merely call, the next `advance` declares
the betting round complete and deals the flop, although the big blind (seat
0, committed 20 = the big blind, still active) never acted: the pointer was
at seats 1 and 2 for the two processed actions only.  `postBlinds` records
the big blind as `lastRaiserIndex`, so `isBettingRoundComplete` returns true
as soon as the pointer returns to the big blind seat, before the
big-blind-option code below that check is never reached. -/
theorem bb_option_denied :
    bbDemoS0.dealerIndex = 1 ∧
    (bbDemoS0.players.getD 0 dftPlayer).totalBetThisRound = bbDemoS0.bigBlind ∧
    (bbDemoS0.players.getD 0 dftPlayer).hasFolded = false ∧
    (bbDemoS0.players.getD 0 dftPlayer).isAllIn = false ∧
    bbDemoS0.currentPlayerIndex = 1 ∧
    (processAction .call 0 bbDemoS0).1 = true ∧
    (advance bbDemoS1).map (fun pr => pr.2.phaseChanged) = some false ∧
    bbDemoS2.currentPlayerIndex = 2 ∧
    (processAction .call 0 bbDemoS2).1 = true ∧
    (advance bbDemoS3).map (fun pr => (pr.2.phaseChanged, pr.1.phase)) =
      some (true, Phase.flop) := by
  decide

/-! ### Claim C4: termination of the engine operations -/

/-- Both players can only cover 5 chips: the blinds put them all-in. -/
def stuckHand : PokerEngine :=
  (startNewHand createDeck
    (mkEngine [{ wPlayerA with chips := 5 }, { wPlayerA with chips := 5 }] 20)).1

/-- C4 fails on the code: in the reachable state where every player is
all-in from the blinds (two 5-chip stacks against a 20 big blind), the
`while` loop of `advancePhase` scanning for a non-folded, non-all-in player
never terminates — the fueled scan returns `none` for every fuel — so
`advance` never returns (modelled as `none`). -/
theorem advance_allin_diverges :
    (∀ p ∈ stuckHand.players, p.isAllIn = true ∧ p.hasFolded = false) ∧
    (∀ fuel, firstActiveFrom stuckHand.players 0 fuel = none ∧
      firstActiveFrom stuckHand.players 1 fuel = none) ∧
    advance stuckHand = none := by
  refine ⟨by decide, ?_, by decide⟩
  intro fuel
  induction fuel with
  | zero => exact ⟨rfl, rfl⟩
  | succ f ih =>
    have h0 : firstActiveFrom stuckHand.players 0 (f + 1) =
        firstActiveFrom stuckHand.players 1 f := rfl
    have h1 : firstActiveFrom stuckHand.players 1 (f + 1) =
        firstActiveFrom stuckHand.players 0 f := rfl
    rw [h0, h1]
    exact ⟨ih.2, ih.1⟩

end PokerEngine

/-! ### Claim C8: compareHands -/

theorem kickCmp_eq_zero_iff (xs ys : List Nat) :
    kickCmp xs ys = 0 ↔
      ∀ i, i < min xs.length ys.length → xs.getD i 0 = ys.getD i 0 := by
  induction xs generalizing ys with
  | nil => simp [kickCmp]
  | cons a as ih =>
    cases ys with
    | nil => simp [kickCmp]
    | cons b bs =>
      by_cases hab : a = b
      · subst hab
        rw [show kickCmp (a :: as) (a :: bs) = kickCmp as bs by simp [kickCmp]]
        rw [ih bs]
        constructor
        · intro h i hi
          cases i with
          | zero => rfl
          | succ j =>
            simpa [List.getD] using h j (by simpa using hi)
        · intro h i hi
          simpa [List.getD] using h (i + 1) (by simpa using hi)
      · rw [show kickCmp (a :: as) (b :: bs) = (a : Int) - b by simp [kickCmp, hab]]
        constructor
        · intro h
          exact absurd (by omega : a = b) hab
        · intro h
          exact absurd (by simpa [List.getD] using h 0 (by simp)) hab

theorem kickCmp_neg (xs ys : List Nat) : kickCmp ys xs = -kickCmp xs ys := by
  induction xs generalizing ys with
  | nil => cases ys <;> simp [kickCmp]
  | cons a as ih =>
    cases ys with
    | nil => simp [kickCmp]
    | cons b bs =>
      by_cases hab : a = b
      · subst hab; simpa [kickCmp] using ih bs
      · simp [kickCmp, hab, Ne.symm hab]

theorem kickCmp_first_diff (xs ys : List Nat) (i : Nat)
    (hi : i < min xs.length ys.length)
    (hpre : ∀ j, j < i → xs.getD j 0 = ys.getD j 0)
    (hne : xs.getD i 0 ≠ ys.getD i 0) :
    kickCmp xs ys = (xs.getD i 0 : Int) - ys.getD i 0 := by
  induction i generalizing xs ys with
  | zero =>
    cases xs with
    | nil => simp at hi
    | cons a as =>
      cases ys with
      | nil => simp at hi
      | cons b bs =>
        simp only [List.getD] at hne ⊢
        simp only [kickCmp]
        rw [if_pos (by simpa using hne)]
        simp
  | succ n ih =>
    cases xs with
    | nil => simp at hi
    | cons a as =>
      cases ys with
      | nil => simp at hi
      | cons b bs =>
        have hab : a = b := by simpa [List.getD] using hpre 0 (by omega)
        subst hab
        rw [show kickCmp (a :: as) (a :: bs) = kickCmp as bs by simp [kickCmp]]
        have := ih as bs (by simp at hi ⊢; omega)
          (fun j hj => by simpa [List.getD] using hpre (j + 1) (by omega))
          (by simpa [List.getD] using hne)
        simpa [List.getD] using this

/-- Counterexample to C8: `compareHands` of a two-pair hand against a
high-card hand returns 2, which is not in the set -1, 0, 1 the claim
requires. -/
theorem compareHands_not_sign_normalized :
    compareHands
      (evaluate5CardHand [⟨.spades, 2⟩, ⟨.hearts, 2⟩, ⟨.diamonds, 3⟩, ⟨.clubs, 3⟩,
        ⟨.spades, 9⟩])
      (evaluate5CardHand [⟨.spades, 2⟩, ⟨.hearts, 4⟩, ⟨.diamonds, 7⟩, ⟨.clubs, 9⟩,
        ⟨.spades, 11⟩]) = 2 ∧
    ¬ ((2 : Int) = -1 ∨ (2 : Int) = 0 ∨ (2 : Int) = 1) := by
  decide

/-- C8 (amended): `compareHands` returns an integer whose sign carries the
comparison rather than a value in -1, 0, 1: it is 0 exactly when the
categories match and every element of the overlapping kicker prefix
matches; it is antisymmetric; across categories its sign is the category
order; and on a category tie it equals the first differing overlapping
kicker of `a` minus that of `b`. -/
theorem compareHands_spec (a b : HandValue) :
    (compareHands a b = 0 ↔ (a.rank = b.rank ∧
      ∀ i, i < min a.kickers.length b.kickers.length →
        a.kickers.getD i 0 = b.kickers.getD i 0)) ∧
    compareHands b a = -compareHands a b ∧
    (a.rank ≠ b.rank → (0 < compareHands a b ↔ b.rank < a.rank)) ∧
    (a.rank = b.rank →
      ∀ i, i < min a.kickers.length b.kickers.length →
        (∀ j, j < i → a.kickers.getD j 0 = b.kickers.getD j 0) →
        a.kickers.getD i 0 ≠ b.kickers.getD i 0 →
        compareHands a b = (a.kickers.getD i 0 : Int) - b.kickers.getD i 0) := by
  refine ⟨?_, ?_, ?_, ?_⟩
  · by_cases hr : a.rank = b.rank
    · rw [show compareHands a b = kickCmp a.kickers b.kickers by
        simp [compareHands, hr]]
      rw [kickCmp_eq_zero_iff]
      simp [hr]
    · rw [show compareHands a b = (a.rank : Int) - b.rank by
        simp [compareHands, hr]]
      constructor
      · intro h; exact absurd (by omega : a.rank = b.rank) hr
      · intro h; exact absurd h.1 hr
  · by_cases hr : a.rank = b.rank
    · rw [show compareHands a b = kickCmp a.kickers b.kickers by simp [compareHands, hr]]
      rw [show compareHands b a = kickCmp b.kickers a.kickers by
        simp [compareHands, hr.symm]]
      exact kickCmp_neg _ _
    · have h1 : compareHands a b = (a.rank : Int) - b.rank := by simp [compareHands, hr]
      have h2 : compareHands b a = (b.rank : Int) - a.rank := by
        simp [compareHands, Ne.symm hr]
      rw [h1, h2]
      omega
  · intro hr
    rw [show compareHands a b = (a.rank : Int) - b.rank by simp [compareHands, hr]]
    omega
  · intro hr i hi hpre hne
    rw [show compareHands a b = kickCmp a.kickers b.kickers by simp [compareHands, hr]]
    exact kickCmp_first_diff _ _ i hi hpre hne

/-- Witness for the amended C8 at concrete hand values. -/
theorem compareHands_spec_witness :
    compareHands ⟨3, "Two Pair", [5, 4, 9]⟩ ⟨3, "Two Pair", [5, 4, 9]⟩ = 0 ∧
    compareHands ⟨1, "High Card", [9, 7, 5, 3, 2]⟩ ⟨3, "Two Pair", [5, 4, 9]⟩ =
      -compareHands ⟨3, "Two Pair", [5, 4, 9]⟩ ⟨1, "High Card", [9, 7, 5, 3, 2]⟩ ∧
    0 < compareHands ⟨3, "Two Pair", [5, 4, 9]⟩ ⟨1, "High Card", [9, 7, 5, 3, 2]⟩ ∧
    compareHands ⟨3, "Two Pair", [5, 4, 9]⟩ ⟨3, "Two Pair", [5, 4, 2]⟩ =
      ((9 : Nat) : Int) - ((2 : Nat) : Int) := by
  refine ⟨?_, ?_, ?_, ?_⟩
  · exact (compareHands_spec ⟨3, "Two Pair", [5, 4, 9]⟩ ⟨3, "Two Pair", [5, 4, 9]⟩).1.mpr
      ⟨rfl, by decide⟩
  · exact (compareHands_spec ⟨3, "Two Pair", [5, 4, 9]⟩ ⟨1, "High Card", [9, 7, 5, 3, 2]⟩).2.1
  · exact ((compareHands_spec ⟨3, "Two Pair", [5, 4, 9]⟩
      ⟨1, "High Card", [9, 7, 5, 3, 2]⟩).2.2.1 (by decide)).mpr (by decide)
  · exact (compareHands_spec ⟨3, "Two Pair", [5, 4, 9]⟩ ⟨3, "Two Pair", [5, 4, 2]⟩).2.2.2
      rfl 2 (by decide) (by decide) (by decide)

/-! ### Claim C7: the wheel straight -/

theorem sortedDesc_perm (cards : List Card) : List.Perm (sortedDesc cards) cards :=
  List.perm_insertionSort _ _

theorem sorted_structure (cards : List Card) (v0 v1 v2 v3 v4 : Nat)
    (h : (sortedDesc cards).map (fun x => x.value) = [v0, v1, v2, v3, v4]) :
    ∃ c0 c1 c2 c3 c4, sortedDesc cards = [c0, c1, c2, c3, c4] ∧
      c0.value = v0 ∧ c1.value = v1 ∧ c2.value = v2 ∧ c3.value = v3 ∧ c4.value = v4 ∧
      cards.length = 5 ∧
      ∀ v, (cards.map (fun x => x.value)).count v = [v0, v1, v2, v3, v4].count v := by
  rcases hsd : sortedDesc cards with _ | ⟨c0, _ | ⟨c1, _ | ⟨c2, _ | ⟨c3, _ | ⟨c4, _ | ⟨c5, t⟩⟩⟩⟩⟩⟩ <;>
    rw [hsd] at h <;> simp at h
  obtain ⟨h0, h1, h2, h3, h4⟩ := h
  have hperm := sortedDesc_perm cards
  rw [hsd] at hperm
  have hlen : cards.length = 5 := by
    have := hperm.length_eq
    simpa using this.symm
  refine ⟨c0, c1, c2, c3, c4, rfl, h0, h1, h2, h3, h4, hlen, fun v => ?_⟩
  have hc := (hperm.map fun x => x.value).count_eq v
  rw [← hc]
  simp [h0, h1, h2, h3, h4]

theorem groupSizes_le_one (cards : List Card)
    (hnd : (cards.map (fun x => x.value)).Nodup) (i : Nat) :
    (groupSizesDesc cards).getD i 0 ≤ 1 := by
  have hall : ∀ x ∈ groupSizesDesc cards, x ≤ 1 := by
    intro x hx
    have hx2 : x ∈ (groupByRank cards).map (fun g => g.2.length) :=
      (List.perm_insertionSort _ _).mem_iff.mp hx
    obtain ⟨g, hg, hgx⟩ := List.mem_map.mp hx2
    obtain ⟨v, hv, hgv⟩ := List.mem_map.mp hg
    have hlenx : x = ((cards.filter fun c => c.value == v)).length := by
      rw [← hgx, ← hgv]
    have hcount : ((cards.filter fun c => c.value == v)).length =
        (cards.map (fun x => x.value)).count v := by
      rw [← List.countP_eq_length_filter]
      rw [List.count, List.countP_map]
      rfl
    rw [hlenx, hcount]
    exact List.nodup_iff_count_le_one.mp hnd v
  by_cases hi : i < (groupSizesDesc cards).length
  · exact hall _ (List.get?_mem (lt_get?_some 0 hi))
  · rw [List.getD_eq_default]
    · omega
    · omega

/-- Reaching the Straight branch of `evaluate5CardHand`. -/
theorem eval_straight_branch (cards : List Card)
    (hfl : isFlush cards = false) (hstr : isStraight cards = true)
    (hg : ∀ i, (groupSizesDesc cards).getD i 0 ≤ 1) :
    evaluate5CardHand cards =
      if ((sortedDesc cards).map (fun x => x.value)).getD 0 0 = 14 ∧
          ((sortedDesc cards).map (fun x => x.value)).getD 1 0 = 5 then
        ⟨5, "Straight", [5]⟩
      else ⟨5, "Straight", [((sortedDesc cards).map (fun x => x.value)).getD 0 0]⟩ := by
  unfold evaluate5CardHand
  dsimp only
  rw [hfl, hstr]
  rw [if_neg (by simp), if_neg (by simp),
    if_neg (by have := hg 0; omega),
    if_neg (by have := hg 0; have := hg 1; omega),
    if_neg (by simp), if_pos (by simp)]

/-- Reaching the Straight Flush branch of `evaluate5CardHand`. -/
theorem eval_straight_flush_branch (cards : List Card)
    (hfl : isFlush cards = true) (hstr : isStraight cards = true)
    (hnot14 : ((sortedDesc cards).map (fun x => x.value)).getD 0 0 ≠ 14) :
    evaluate5CardHand cards =
      ⟨9, "Straight Flush", (sortedDesc cards).map (fun x => x.value)⟩ := by
  unfold evaluate5CardHand
  dsimp only
  rw [hfl, hstr]
  rw [if_neg (fun h => hnot14 h.2.2.1), if_pos ⟨rfl, rfl⟩]

/-- C7: a 5-card non-flush hand whose sorted values are A-5-4-3-2 evaluates
to a Straight with tiebreak sequence exactly [5]; it compares strictly below
every hand whose sorted values are 6-5-4-3-2 (flush or not); and every other
5-card non-flush straight gets as tiebreak the single high card of the run
(the head of the descending sort, which bounds every card value). -/
theorem wheel_straight_spec (w s c : List Card)
    (hw : (sortedDesc w).map (fun x => x.value) = [14, 5, 4, 3, 2])
    (hwf : isFlush w = false)
    (hs6 : (sortedDesc s).map (fun x => x.value) = [6, 5, 4, 3, 2])
    (hc5 : c.length = 5)
    (hcs : isStraight c = true) (hcf : isFlush c = false)
    (hcw : (sortedDesc c).map (fun x => x.value) ≠ [14, 5, 4, 3, 2]) :
    evaluate5CardHand w = ⟨5, "Straight", [5]⟩ ∧
    compareHands (evaluate5CardHand w) (evaluate5CardHand s) < 0 ∧
    evaluate5CardHand c =
      ⟨5, "Straight", [((sortedDesc c).map (fun x => x.value)).getD 0 0]⟩ ∧
    (∀ x ∈ c.map (fun x => x.value),
      x ≤ ((sortedDesc c).map (fun x => x.value)).getD 0 0) := by
  obtain ⟨a0, a1, a2, a3, a4, hsdw, hw0, hw1, hw2, hw3, hw4, hlw, hctw⟩ :=
    sorted_structure w _ _ _ _ _ hw
  have hndw : (w.map (fun x => x.value)).Nodup := by
    rw [List.nodup_iff_count_le_one]
    intro v
    rw [hctw v]
    exact List.nodup_iff_count_le_one.mp (by decide) v
  have hgw := groupSizes_le_one w hndw
  have hstrw : isStraight w = true := by
    unfold isStraight
    dsimp only
    rw [hsdw]
    rw [if_pos (by simp [List.getD, hw0, hw1, hw2, hw3, hw4])]
  have hevw : evaluate5CardHand w = ⟨5, "Straight", [5]⟩ := by
    rw [eval_straight_branch w hwf hstrw hgw]
    rw [if_pos (by rw [hw]; exact ⟨rfl, rfl⟩)]
  obtain ⟨b0, b1, b2, b3, b4, hsds, hs0, hs1, hs2, hs3, hs4, hls, hcts⟩ :=
    sorted_structure s _ _ _ _ _ hs6
  have hstrs : isStraight s = true := by
    unfold isStraight
    dsimp only
    rw [hsds]
    rw [if_neg (by simp [List.getD, hs0])]
    rw [List.all_eq_true]
    intro i hi
    have hi4 : i < 4 := List.mem_range.mp hi
    interval_cases i <;> simp [List.getD, hs0, hs1, hs2, hs3, hs4]
  have hcmp : compareHands (evaluate5CardHand w) (evaluate5CardHand s) < 0 := by
    rw [hevw]
    cases hfs : isFlush s with
    | true =>
      rw [eval_straight_flush_branch s hfs hstrs (by rw [hs6]; decide)]
      norm_num [compareHands]
    | false =>
      have hnds : (s.map (fun x => x.value)).Nodup := by
        rw [List.nodup_iff_count_le_one]
        intro v
        rw [hcts v]
        exact List.nodup_iff_count_le_one.mp (by decide) v
      rw [eval_straight_branch s hfs hstrs (groupSizes_le_one s hnds)]
      rw [if_neg (by rw [hs6]; decide), hs6]
      decide
  have hlen5 : (sortedDesc c).length = 5 := by
    rw [(sortedDesc_perm c).length_eq]
    exact hc5
  rcases hsdc : sortedDesc c with
    _ | ⟨d0, _ | ⟨d1, _ | ⟨d2, _ | ⟨d3, _ | ⟨d4, _ | ⟨d5, t⟩⟩⟩⟩⟩⟩ <;>
    rw [hsdc] at hlen5 <;> simp at hlen5
  have hmapc : (sortedDesc c).map (fun x => x.value) =
      [d0.value, d1.value, d2.value, d3.value, d4.value] := by
    rw [hsdc]; rfl
  have hcs2 := hcs
  unfold isStraight at hcs2
  dsimp only at hcs2
  rw [hsdc] at hcs2
  split at hcs2
  · rename_i hcond
    simp only [List.getD] at hcond
    exfalso
    apply hcw
    rw [hmapc]
    simp at hcond
    simp [hcond.1, hcond.2.1, hcond.2.2.1, hcond.2.2.2.1, hcond.2.2.2.2]
  · rw [List.all_eq_true] at hcs2
    have e0 : d0.value = d1.value + 1 := by
      have := hcs2 0 (by decide)
      simp [List.getD] at this
      omega
    have e1 : d1.value = d2.value + 1 := by
      have := hcs2 1 (by decide)
      simp [List.getD] at this
      omega
    have e2 : d2.value = d3.value + 1 := by
      have := hcs2 2 (by decide)
      simp [List.getD] at this
      omega
    have e3 : d3.value = d4.value + 1 := by
      have := hcs2 3 (by decide)
      simp [List.getD] at this
      omega
    have hndc : (c.map (fun x => x.value)).Nodup := by
      have hlit : ([d0.value, d1.value, d2.value, d3.value, d4.value] : List Nat).Nodup := by
        simp
        omega
      have hp := (sortedDesc_perm c).map (fun x => x.value)
      rw [hmapc] at hp
      exact hp.nodup_iff.mp hlit
    have hevc : evaluate5CardHand c =
        ⟨5, "Straight", [((sortedDesc c).map (fun x => x.value)).getD 0 0]⟩ := by
      rw [eval_straight_branch c hcf hcs (groupSizes_le_one c hndc)]
      rw [if_neg (by rw [hmapc]; simp [List.getD]; omega)]
    rw [hsdc] at hevc
    refine ⟨hevw, hcmp, hevc, ?_⟩
    intro x hx
    have hx2 : x ∈ (sortedDesc c).map (fun y => y.value) :=
      ((sortedDesc_perm c).map _).mem_iff.mpr hx
    rw [hsdc] at hx2
    simp [List.getD] at hx2 ⊢
    rcases hx2 with h | h | h | h | h <;> omega

/-- Concrete hands for the C7 witness. -/
def wheelHand : List Card :=
  [⟨.spades, 14⟩, ⟨.hearts, 2⟩, ⟨.diamonds, 3⟩, ⟨.clubs, 4⟩, ⟨.spades, 5⟩]

def sixHighHand : List Card :=
  [⟨.clubs, 2⟩, ⟨.diamonds, 3⟩, ⟨.hearts, 4⟩, ⟨.spades, 5⟩, ⟨.diamonds, 6⟩]

def nineHighHand : List Card :=
  [⟨.spades, 9⟩, ⟨.hearts, 8⟩, ⟨.diamonds, 7⟩, ⟨.clubs, 6⟩, ⟨.spades, 5⟩]

/-- Witness for C7 at concrete hands. -/
theorem wheel_straight_spec_witness :
    evaluate5CardHand wheelHand = ⟨5, "Straight", [5]⟩ ∧
    compareHands (evaluate5CardHand wheelHand) (evaluate5CardHand sixHighHand) < 0 ∧
    evaluate5CardHand nineHighHand =
      ⟨5, "Straight", [((sortedDesc nineHighHand).map (fun x => x.value)).getD 0 0]⟩ ∧
    (∀ x ∈ nineHighHand.map (fun x => x.value),
      x ≤ ((sortedDesc nineHighHand).map (fun x => x.value)).getD 0 0) :=
  wheel_straight_spec wheelHand sixHighHand nineHighHand
    (by decide) (by decide) (by decide) (by decide) (by decide) (by decide) (by decide)

/-! ### Claim C6: evaluateBestHand -/

/-- The kicker-list length `evaluate5CardHand` produces for each category. -/
def klen : Nat → Nat
  | 1 => 5
  | 2 => 4
  | 3 => 3
  | 4 => 3
  | 5 => 1
  | 6 => 5
  | 7 => 2
  | 8 => 2
  | 9 => 5
  | 10 => 5
  | _ => 0

theorem filter_length_count (cards : List Card) (v : Nat) :
    (cards.filter fun c => c.value == v).length = (cards.map fun x => x.value).count v := by
  rw [← List.countP_eq_length_filter, List.count, List.countP_map]
  rfl

theorem sizes_eq (cards : List Card) :
    (groupByRank cards).map (fun g => g.2.length) =
      (keysAsc cards).map fun v => (cards.map fun x => x.value).count v := by
  unfold groupByRank
  rw [List.map_map]
  exact List.map_congr_left fun v _ => filter_length_count cards v

theorem filter_ne_length (l : List Nat) (a : Nat) :
    (l.filter fun x => x != a).length = l.length - l.count a := by
  induction l with
  | nil => rfl
  | cons x t ih =>
    have hc : t.count a ≤ t.length := List.count_le_length a t
    by_cases hx : x = a
    · subst hx
      rw [show ((x :: t).filter fun y => y != x) = t.filter fun y => y != x by simp]
      rw [ih]
      simp only [List.length_cons, List.count_cons_self]
      omega
    · rw [show ((x :: t).filter fun y => y != a) = x :: (t.filter fun y => y != a) by
        simp [hx]]
      have hcc : List.count a (x :: t) = List.count a t :=
        List.count_cons_of_ne (Ne.symm hx) t
      simp only [List.length_cons]
      rw [ih, hcc]
      omega

theorem length_le_sum (l : List Nat) (h : ∀ x ∈ l, 1 ≤ x) : l.length ≤ l.sum := by
  induction l with
  | nil => simp
  | cons x t ih =>
    have hx := h x (by simp)
    have ht := ih fun y hy => h y (by simp [hy])
    simp
    omega

theorem sizes_sum (cards : List Card) :
    ((groupByRank cards).map fun g => g.2.length).sum = cards.length := by
  rw [sizes_eq]
  have hperm : List.Perm (keysAsc cards) (cards.map fun x => x.value).dedup :=
    List.perm_insertionSort _ _
  rw [(hperm.map fun v => (cards.map fun x => x.value).count v).sum_eq]
  rw [List.sum_map_count_dedup_eq_length]
  exact List.length_map cards _

theorem sizes_pos (cards : List Card) :
    ∀ x ∈ (groupByRank cards).map fun g => g.2.length, 1 ≤ x := by
  rw [sizes_eq]
  intro x hx
  obtain ⟨v, hv, hvx⟩ := List.mem_map.mp hx
  have hvmem : v ∈ (cards.map fun x => x.value).dedup :=
    (List.perm_insertionSort _ _).mem_iff.mp hv
  have : 0 < (cards.map fun x => x.value).count v :=
    List.count_pos_iff_mem.mpr (List.mem_dedup.mp hvmem)
  omega

/-- A size found at a position of the sorted group-size list is the size of
an actual rank group (provided it is not the out-of-range default 0). -/
theorem group_of_size (cards : List Card) (i k : Nat) (hk : k ≠ 0)
    (hgd : (groupSizesDesc cards).getD i 0 = k) :
    ∃ v, (cards.map fun x => x.value).count v = k ∧
      (v, cards.filter fun c => c.value == v) ∈ groupByRank cards := by
  by_cases hi : i < (groupSizesDesc cards).length
  · have hmem : k ∈ groupSizesDesc cards := by
      rw [← hgd]
      exact List.get?_mem (lt_get?_some 0 hi)
    have hmem2 : k ∈ (groupByRank cards).map fun g => g.2.length :=
      (List.perm_insertionSort _ _).mem_iff.mp hmem
    obtain ⟨g, hg, hglen⟩ := List.mem_map.mp hmem2
    obtain ⟨v, hv, hgv⟩ := List.mem_map.mp hg
    refine ⟨v, ?_, by rw [hgv]; exact hg⟩
    rw [← filter_length_count]
    rw [← hglen, ← hgv]
  · rw [List.getD_eq_default] at hgd
    · omega
    · omega

/-- The `find?` locating a group of size `k` succeeds and returns a group of
that size. -/
theorem find_group_of_size (cards : List Card) (i k : Nat) (hk : k ≠ 0)
    (hgd : (groupSizesDesc cards).getD i 0 = k) :
    ∃ v, ((groupByRank cards).find? fun g => g.2.length == k) =
        some (v, cards.filter fun c => c.value == v) ∧
      (cards.map fun x => x.value).count v = k := by
  obtain ⟨v0, hv0, hv0mem⟩ := group_of_size cards i k hk hgd
  have hsome : (((groupByRank cards).find? fun g => g.2.length == k)).isSome := by
    rw [List.find?_isSome]
    refine ⟨_, hv0mem, ?_⟩
    simp [filter_length_count, hv0]
  obtain ⟨g0, hg0⟩ := Option.isSome_iff_exists.mp hsome
  have hg0len : g0.2.length = k := by
    have := List.find?_some hg0
    simpa using this
  have hg0mem := List.mem_of_find?_eq_some hg0
  obtain ⟨v, hv, hgv⟩ := List.mem_map.mp hg0mem
  refine ⟨v, ?_, ?_⟩
  · rw [hg0, ← hgv]
  · rw [← filter_length_count, ← hg0len, ← hgv]


theorem values_length (cards : List Card) :
    ((sortedDesc cards).map fun c => c.value).length = cards.length := by
  rw [List.length_map]
  exact (sortedDesc_perm cards).length_eq

theorem values_count (cards : List Card) (v : Nat) :
    ((sortedDesc cards).map fun c => c.value).count v =
      (cards.map fun x => x.value).count v :=
  ((sortedDesc_perm cards).map fun c => c.value).count_eq v

/-- When the two largest group sizes of a 5-card hand are 2 and 2, the sizes
are exactly [2, 2, 1], so exactly two rank groups have size 2. -/
theorem twopair_groups (cards : List Card) (hlen : cards.length = 5)
    (h0 : (groupSizesDesc cards).getD 0 0 = 2)
    (h1 : (groupSizesDesc cards).getD 1 0 = 2) :
    ((groupByRank cards).filter fun g => g.2.length == 2).length = 2 := by
  have hperm : List.Perm (groupSizesDesc cards)
      ((groupByRank cards).map fun g => g.2.length) :=
    List.perm_insertionSort _ _
  have hsum : (groupSizesDesc cards).sum = 5 := by
    rw [hperm.sum_eq, sizes_sum, hlen]
  have hpos : ∀ x ∈ groupSizesDesc cards, 1 ≤ x :=
    fun x hx => sizes_pos cards x (hperm.subset hx)
  obtain ⟨rest, hrest⟩ : ∃ rest, groupSizesDesc cards = 2 :: 2 :: rest := by
    match hsz : groupSizesDesc cards with
    | [] => rw [hsz] at h0; simp [List.getD] at h0
    | [a] => rw [hsz] at h1; simp [List.getD] at h1
    | a :: b :: rest =>
      rw [hsz] at h0 h1
      simp [List.getD] at h0 h1
      exact ⟨rest, by rw [h0, h1]⟩
  have hsum2 : rest.sum = 1 := by
    rw [hrest] at hsum
    simp at hsum
    omega
  have hposr : ∀ x ∈ rest, 1 ≤ x := fun x hx => hpos x (by rw [hrest]; simp [hx])
  have hrest1 : rest = [1] := by
    match rest, hsum2, hposr with
    | [], hs, _ => simp at hs
    | [x], hs, hp =>
      simp at hs
      simp [hs]
    | x :: y :: t, hs, hp =>
      have hlen2 := length_le_sum (x :: y :: t) hp
      rw [hs] at hlen2
      simp at hlen2
  have hcnt : (((groupByRank cards).map fun g => g.2.length).countP
      fun n => n == 2) = 2 := by
    rw [← hperm.countP_eq, hrest, hrest1]
    rfl
  rw [← List.countP_eq_length_filter]
  rw [List.countP_map] at hcnt
  exact hcnt

/-- Well-shapedness of `evaluate5CardHand` on 5-card inputs: the length of
the kicker list is a function `klen` of the category alone. -/
theorem eval_wellShaped (cards : List Card) (hlen : cards.length = 5) :
    (evaluate5CardHand cards).kickers.length =
      klen (evaluate5CardHand cards).rank := by
  have hvlen : ((sortedDesc cards).map fun c => c.value).length = 5 := by
    rw [values_length, hlen]
  rcases hE : evaluate5CardHand cards with ⟨r, nm, ks⟩
  dsimp only
  unfold evaluate5CardHand at hE
  dsimp only at hE
  by_cases hc1 : isFlush cards = true ∧ isStraight cards = true ∧
      ((sortedDesc cards).map fun c => c.value).getD 0 0 = 14 ∧
      ((sortedDesc cards).map fun c => c.value).getD 4 0 = 10
  · rw [if_pos hc1] at hE
    injection hE with hr hnm hks
    subst hr; subst hks
    exact hvlen.trans rfl
  · rw [if_neg hc1] at hE
    by_cases hc2 : isFlush cards = true ∧ isStraight cards = true
    · rw [if_pos hc2] at hE
      injection hE with hr hnm hks
      subst hr; subst hks
      exact hvlen.trans rfl
    · rw [if_neg hc2] at hE
      by_cases hc3 : (groupSizesDesc cards).getD 0 0 = 4
      · rw [if_pos hc3] at hE
        injection hE with hr hnm hks
        subst hr; subst hks
        rfl
      · rw [if_neg hc3] at hE
        by_cases hc4 : (groupSizesDesc cards).getD 0 0 = 3 ∧
            (groupSizesDesc cards).getD 1 0 = 2
        · rw [if_pos hc4] at hE
          injection hE with hr hnm hks
          subst hr; subst hks
          rfl
        · rw [if_neg hc4] at hE
          by_cases hc5 : isFlush cards = true
          · rw [if_pos hc5] at hE
            injection hE with hr hnm hks
            subst hr; subst hks
            exact hvlen.trans rfl
          · rw [if_neg hc5] at hE
            by_cases hc6 : isStraight cards = true
            · rw [if_pos hc6] at hE
              by_cases hc6a : ((sortedDesc cards).map fun c => c.value).getD 0 0 = 14 ∧
                  ((sortedDesc cards).map fun c => c.value).getD 1 0 = 5
              · rw [if_pos hc6a] at hE
                injection hE with hr hnm hks
                subst hr; subst hks
                rfl
              · rw [if_neg hc6a] at hE
                injection hE with hr hnm hks
                subst hr; subst hks
                rfl
            · rw [if_neg hc6] at hE
              by_cases hc7 : (groupSizesDesc cards).getD 0 0 = 3
              · rw [if_pos hc7] at hE
                injection hE with hr hnm hks
                subst hr; subst hks
                obtain ⟨v, hfind, hcount⟩ :=
                  find_group_of_size cards 0 3 (by omega) hc7
                rw [hfind]
                simp only [Option.getD_some]
                rw [List.length_cons, List.length_take, filter_ne_length,
                  values_count, hcount, values_length, hlen]
                decide
              · rw [if_neg hc7] at hE
                by_cases hc8 : (groupSizesDesc cards).getD 0 0 = 2 ∧
                    (groupSizesDesc cards).getD 1 0 = 2
                · rw [if_pos hc8] at hE
                  injection hE with hr hnm hks
                  subst hr; subst hks
                  rw [List.length_append,
                    (List.perm_insertionSort _ _).length_eq,
                    List.length_map, twopair_groups cards hlen hc8.1 hc8.2]
                  rfl
                · rw [if_neg hc8] at hE
                  by_cases hc9 : (groupSizesDesc cards).getD 0 0 = 2
                  · rw [if_pos hc9] at hE
                    injection hE with hr hnm hks
                    subst hr; subst hks
                    obtain ⟨v, hfind, hcount⟩ :=
                      find_group_of_size cards 0 2 (by omega) hc9
                    rw [hfind]
                    simp only [Option.getD_some]
                    rw [List.length_cons, List.length_take, filter_ne_length,
                      values_count, hcount, values_length, hlen]
                    decide
                  · rw [if_neg hc9] at hE
                    injection hE with hr hnm hks
                    subst hr; subst hks
                    exact hvlen.trans rfl

theorem kickCmp_self (a : List Nat) : kickCmp a a = 0 := by
  have := kickCmp_neg a a
  omega

theorem compareHands_antisym (a b : HandValue) :
    compareHands b a = -compareHands a b := by
  unfold compareHands
  by_cases h : a.rank = b.rank
  · rw [if_neg (fun hne => hne h.symm), if_neg (fun hne => hne h)]
    exact kickCmp_neg a.kickers b.kickers
  · rw [if_pos (fun he => h he.symm), if_pos h]
    omega

theorem compareHands_self (a : HandValue) : compareHands a a = 0 := by
  have := compareHands_antisym a a
  omega

/-- Lexicographic comparison of equal-length kicker lists is transitive on
the nonnegative side. -/
theorem kickCmp_nonneg_trans (a : List Nat) : ∀ b c : List Nat,
    a.length = b.length → b.length = c.length →
    0 ≤ kickCmp a b → 0 ≤ kickCmp b c → 0 ≤ kickCmp a c := by
  induction a with
  | nil =>
    intro b c hab hbc h1 h2
    cases c with
    | nil => exact le_of_eq (kickCmp_self []).symm
    | cons z cs => simp at hab hbc; omega
  | cons x as ih =>
    intro b c hab hbc h1 h2
    cases b with
    | nil => simp at hab
    | cons y bs =>
      cases c with
      | nil => simp at hbc
      | cons z cs =>
        simp only [List.length_cons] at hab hbc
        simp only [kickCmp] at h1 h2 ⊢
        by_cases hxy : x = y
        · subst hxy
          rw [if_neg (fun hne => hne rfl)] at h1
          by_cases hyz : x = z
          · subst hyz
            rw [if_neg (fun hne => hne rfl)] at h2
            rw [if_neg (fun hne => hne rfl)]
            exact ih bs cs (by omega) (by omega) h1 h2
          · rw [if_pos hyz] at h2
            rw [if_pos hyz]
            exact h2
        · rw [if_pos hxy] at h1
          by_cases hyz : y = z
          · subst hyz
            rw [if_pos hxy]
            exact h1
          · rw [if_pos hyz] at h2
            rw [if_pos (show x ≠ z by omega)]
            omega

/-- `compareHands` is transitive on the nonnegative side for hands whose
kicker lengths are determined by their category. -/
theorem cmp_nonneg_trans (a b c : HandValue)
    (ha : a.kickers.length = klen a.rank)
    (hb : b.kickers.length = klen b.rank)
    (hc : c.kickers.length = klen c.rank)
    (h1 : 0 ≤ compareHands a b) (h2 : 0 ≤ compareHands b c) :
    0 ≤ compareHands a c := by
  unfold compareHands at h1 h2 ⊢
  by_cases hab : a.rank = b.rank
  · rw [if_neg (fun hne => hne hab)] at h1
    by_cases hbc : b.rank = c.rank
    · rw [if_neg (fun hne => hne hbc)] at h2
      rw [if_neg (fun hne => hne (hab.trans hbc))]
      exact kickCmp_nonneg_trans a.kickers b.kickers c.kickers
        (by rw [ha, hb, hab]) (by rw [hb, hc, hbc]) h1 h2
    · rw [if_pos hbc] at h2
      rw [if_pos (show a.rank ≠ c.rank by omega)]
      omega
  · rw [if_pos hab] at h1
    by_cases hbc : b.rank = c.rank
    · rw [if_pos (show a.rank ≠ c.rank by omega)]
      omega
    · rw [if_pos hbc] at h2
      rw [if_pos (show a.rank ≠ c.rank by omega)]
      omega

/-- Invariant of the `for` loop of `evaluateBestHand`: from a well-shaped
accumulator, the fold returns a hand that came from the accumulator or one of
the combinations and is maximal under `compareHands` among all of them. -/
theorem foldBest_go (combos : List (List Card)) : ∀ a : HandValue,
    (∀ cb ∈ combos, (evaluate5CardHand cb).kickers.length =
      klen (evaluate5CardHand cb).rank) →
    a.kickers.length = klen a.rank →
    ∃ b, combos.foldl bestHandStep (some a) = some b ∧
      b.kickers.length = klen b.rank ∧
      (b = a ∨ ∃ cb ∈ combos, b = evaluate5CardHand cb) ∧
      0 ≤ compareHands b a ∧
      ∀ cb ∈ combos, 0 ≤ compareHands b (evaluate5CardHand cb) := by
  induction combos with
  | nil =>
    intro a hws ha
    exact ⟨a, rfl, ha, Or.inl rfl, le_of_eq (compareHands_self a).symm, by simp⟩
  | cons cb cbs ih =>
    intro a hws ha
    have hwcb : (evaluate5CardHand cb).kickers.length =
        klen (evaluate5CardHand cb).rank := hws cb (by simp)
    have hwcbs : ∀ x ∈ cbs, (evaluate5CardHand x).kickers.length =
        klen (evaluate5CardHand x).rank := fun x hx => hws x (by simp [hx])
    rw [List.foldl_cons]
    unfold bestHandStep
    dsimp only
    by_cases hcmp : 0 < compareHands (evaluate5CardHand cb) a
    · rw [if_pos hcmp]
      obtain ⟨b, hfold, hwb, horig, hba, hall⟩ := ih (evaluate5CardHand cb) hwcbs hwcb
      refine ⟨b, hfold, hwb, ?_, ?_, ?_⟩
      · rcases horig with h | ⟨x, hx, hbx⟩
        · exact Or.inr ⟨cb, by simp, h⟩
        · exact Or.inr ⟨x, by simp [hx], hbx⟩
      · exact cmp_nonneg_trans b (evaluate5CardHand cb) a hwb hwcb ha hba (le_of_lt hcmp)
      · intro x hx
        rcases List.mem_cons.mp hx with h | h
        · rw [h]; exact hba
        · exact hall x h
    · rw [if_neg hcmp]
      obtain ⟨b, hfold, hwb, horig, hba, hall⟩ := ih a hwcbs ha
      have hacb : 0 ≤ compareHands a (evaluate5CardHand cb) := by
        have := compareHands_antisym (evaluate5CardHand cb) a
        omega
      refine ⟨b, hfold, hwb, ?_, hba, ?_⟩
      · rcases horig with h | ⟨x, hx, hbx⟩
        · exact Or.inl h
        · exact Or.inr ⟨x, by simp [hx], hbx⟩
      · intro x hx
        rcases List.mem_cons.mp hx with h | h
        · rw [h]
          exact cmp_nonneg_trans b a (evaluate5CardHand cb) hwb ha hwcb hba hacb
        · exact hall x h

/-- The fold of `evaluateBestHand` over a nonempty combination list returns
the evaluation of one of the combinations, maximal among all of them. -/
theorem foldBest_max (combos : List (List Card)) (hne : combos ≠ [])
    (hws : ∀ x ∈ combos, (evaluate5CardHand x).kickers.length =
      klen (evaluate5CardHand x).rank) :
    ∃ b, combos.foldl bestHandStep none = some b ∧
      (∃ x ∈ combos, b = evaluate5CardHand x) ∧
      ∀ x ∈ combos, 0 ≤ compareHands b (evaluate5CardHand x) := by
  match combos, hne with
  | cb :: cbs, _ =>
    rw [List.foldl_cons]
    have hstep : bestHandStep none cb = some (evaluate5CardHand cb) := rfl
    rw [hstep]
    obtain ⟨b, hfold, hwb, horig, hba, hall⟩ :=
      foldBest_go cbs (evaluate5CardHand cb) (fun x hx => hws x (by simp [hx]))
        (hws cb (by simp))
    refine ⟨b, hfold, ?_, ?_⟩
    · rcases horig with h | ⟨x, hx, hbx⟩
      · exact ⟨cb, by simp, h⟩
      · exact ⟨x, by simp [hx], hbx⟩
    · intro x hx
      rcases List.mem_cons.mp hx with h | h
      · rw [h]; exact hba
      · exact hall x h

/-- Every index tuple produced by the five nested loops of `getCombinations`
is a strictly increasing 5-tuple of indices below `n`. -/
theorem comboIndices_shape (n : Nat) : ∀ idxs ∈ comboIndices n, ∃ i j k l m,
    idxs = [i, j, k, l, m] ∧ i < j ∧ j < k ∧ k < l ∧ l < m ∧ m < n := by
  intro idxs h
  unfold comboIndices at h
  simp only [List.mem_flatMap, List.mem_map, List.mem_range, List.mem_range'_1] at h
  obtain ⟨i, hi, j, hj, k, hk, l, hl, m, hm, heq⟩ := h
  exact ⟨i, j, k, l, m, heq.symm, by omega, by omega, by omega, by omega, by omega⟩

/-- Conversely, every strictly increasing 5-tuple of indices below `n` is
produced by the five nested loops of `getCombinations`. -/
theorem mem_comboIndices (n i j k l m : Nat) (h1 : i < j) (h2 : j < k)
    (h3 : k < l) (h4 : l < m) (h5 : m < n) :
    [i, j, k, l, m] ∈ comboIndices n := by
  unfold comboIndices
  simp only [List.mem_flatMap, List.mem_map, List.mem_range, List.mem_range'_1]
  exact ⟨i, by omega, j, ⟨by omega, by omega⟩, k, ⟨by omega, by omega⟩,
    l, ⟨by omega, by omega⟩, m, ⟨by omega, by omega⟩, rfl⟩

/-- C6: for every pair (holeCards, communityCards), `evaluateBestHand`
returns null (`none`) when the combined list has fewer than 5 cards; returns
`evaluate5CardHand` of the combined list when it has exactly 5; and otherwise
returns the maximum under `compareHands` over the evaluations of all C(n,5)
5-card subsets (given by strictly increasing index 5-tuples) of the combined
list: the result is the evaluation of one such subset and compares greater
than or equal to the evaluation of every such subset. -/
theorem evaluateBestHand_spec (holeCards communityCards : List Card) :
    ((holeCards ++ communityCards).length < 5 →
      evaluateBestHand holeCards communityCards = none) ∧
    ((holeCards ++ communityCards).length = 5 →
      evaluateBestHand holeCards communityCards =
        some (evaluate5CardHand (holeCards ++ communityCards))) ∧
    (5 < (holeCards ++ communityCards).length →
      ∃ b, evaluateBestHand holeCards communityCards = some b ∧
        (∃ i j k l m, i < j ∧ j < k ∧ k < l ∧ l < m ∧
          m < (holeCards ++ communityCards).length ∧
          b = evaluate5CardHand ([i, j, k, l, m].map fun t =>
            (holeCards ++ communityCards).getD t dftCard)) ∧
        ∀ i j k l m, i < j → j < k → k < l → l < m →
          m < (holeCards ++ communityCards).length →
          0 ≤ compareHands b (evaluate5CardHand ([i, j, k, l, m].map fun t =>
            (holeCards ++ communityCards).getD t dftCard))) := by
  refine ⟨?_, ?_, ?_⟩
  · intro h
    unfold evaluateBestHand
    dsimp only
    rw [if_pos h]
  · intro h
    unfold evaluateBestHand
    dsimp only
    rw [if_neg (by omega), if_pos h]
  · intro h
    unfold evaluateBestHand
    dsimp only
    rw [if_neg (by omega), if_neg (by omega)]
    have hne : getCombinations (holeCards ++ communityCards) ≠ [] := by
      unfold getCombinations
      intro hempty
      have hmem := mem_comboIndices (holeCards ++ communityCards).length 0 1 2 3 4
        (by omega) (by omega) (by omega) (by omega) (by omega)
      have hmm : ([0, 1, 2, 3, 4].map fun t =>
          (holeCards ++ communityCards).getD t dftCard)
          ∈ ((comboIndices (holeCards ++ communityCards).length).map
            fun idxs => idxs.map fun t =>
              (holeCards ++ communityCards).getD t dftCard) :=
        List.mem_map_of_mem _ hmem
      rw [hempty] at hmm
      simp at hmm
    have hws : ∀ x ∈ getCombinations (holeCards ++ communityCards),
        (evaluate5CardHand x).kickers.length = klen (evaluate5CardHand x).rank := by
      intro x hx
      unfold getCombinations at hx
      obtain ⟨idxs, hidxs, hfx⟩ := List.mem_map.mp hx
      obtain ⟨i, j, k, l, m, hshape, _⟩ := comboIndices_shape _ idxs hidxs
      apply eval_wellShaped
      rw [← hfx, hshape]
      rfl
    obtain ⟨b, hfold, horig, hall⟩ := foldBest_max _ hne hws
    refine ⟨b, hfold, ?_, ?_⟩
    · obtain ⟨x, hx, hbx⟩ := horig
      unfold getCombinations at hx
      obtain ⟨idxs, hidxs, hfx⟩ := List.mem_map.mp hx
      obtain ⟨i, j, k, l, m, hshape, hi1, hi2, hi3, hi4, hi5⟩ :=
        comboIndices_shape _ idxs hidxs
      refine ⟨i, j, k, l, m, hi1, hi2, hi3, hi4, hi5, ?_⟩
      rw [hbx, ← hfx, hshape]
    · intro i j k l m h1 h2 h3 h4 h5
      apply hall
      unfold getCombinations
      exact List.mem_map_of_mem _ (mem_comboIndices _ i j k l m h1 h2 h3 h4 h5)

def w6Hole : List Card := [⟨Suit.spades, 14⟩, ⟨Suit.hearts, 14⟩]

def w6Comm3 : List Card := [⟨Suit.clubs, 7⟩, ⟨Suit.diamonds, 9⟩, ⟨Suit.spades, 2⟩]

def w6Comm5 : List Card := [⟨Suit.clubs, 7⟩, ⟨Suit.diamonds, 9⟩, ⟨Suit.spades, 2⟩,
  ⟨Suit.hearts, 5⟩, ⟨Suit.clubs, 13⟩]

theorem evaluateBestHand_spec_witness :
    evaluateBestHand w6Hole [] = none ∧
    evaluateBestHand w6Hole w6Comm3 = some (evaluate5CardHand (w6Hole ++ w6Comm3)) ∧
    (∃ b, evaluateBestHand w6Hole w6Comm5 = some b ∧
      (∃ i j k l m, i < j ∧ j < k ∧ k < l ∧ l < m ∧
        m < (w6Hole ++ w6Comm5).length ∧
        b = evaluate5CardHand ([i, j, k, l, m].map fun t =>
          (w6Hole ++ w6Comm5).getD t dftCard)) ∧
      ∀ i j k l m, i < j → j < k → k < l → l < m →
        m < (w6Hole ++ w6Comm5).length →
        0 ≤ compareHands b (evaluate5CardHand ([i, j, k, l, m].map fun t =>
          (w6Hole ++ w6Comm5).getD t dftCard))) :=
  ⟨(evaluateBestHand_spec w6Hole []).1 (by decide),
   (evaluateBestHand_spec w6Hole w6Comm3).2.1 (by decide),
   (evaluateBestHand_spec w6Hole w6Comm5).2.2 (by decide)⟩
